import Mathlib

/-!
Verification of the ComfyUI node-graph metadata extractor (`_comfyui.py`)
and the alpha-channel LSB extractor (`_steganographic_alpha_channel.py`)
of the `sd-parsers` repository, via a shallow embedding into Lean.

JSON-like Python values are modelled by `Val`; Python exceptions by the
`PyErr` error type of an `Except` monad; the recursion-depth limit of the
interpreter (whose `RecursionError` the traversal swallows) is modelled by
an explicit `fuel : Nat` argument counting the remaining recursion depth.
-/

namespace SdParsers

/-- A JSON-like Python value, as produced by `json.loads`: the node table,
the workflow document, node objects and all input values are such values.
JSON numbers are modelled as integers (the claims under study involve no
floating point). -/
inductive Val where
  | str (s : String)
  | num (n : Int)
  | bool (b : Bool)
  | null
  | list (xs : List Val)
  | dict (kvs : List (String × Val))

mutual

/-- Decidable equality on `Val` (written by hand: automatic deriving does
not support this nested inductive). -/
def valDecEq : (a b : Val) → Decidable (a = b)
  | .str s, .str t =>
    if h : s = t then .isTrue (by rw [h]) else .isFalse (by intro hh; injection hh; contradiction)
  | .num s, .num t =>
    if h : s = t then .isTrue (by rw [h]) else .isFalse (by intro hh; injection hh; contradiction)
  | .bool s, .bool t =>
    if h : s = t then .isTrue (by rw [h]) else .isFalse (by intro hh; injection hh; contradiction)
  | .null, .null => .isTrue rfl
  | .list xs, .list ys =>
    match valDecEqList xs ys with
    | .isTrue h => .isTrue (by rw [h])
    | .isFalse h => .isFalse (by intro hh; injection hh; contradiction)
  | .dict xs, .dict ys =>
    match valDecEqKV xs ys with
    | .isTrue h => .isTrue (by rw [h])
    | .isFalse h => .isFalse (by intro hh; injection hh; contradiction)
  | .str _, .num _ => .isFalse (fun h => nomatch h)
  | .str _, .bool _ => .isFalse (fun h => nomatch h)
  | .str _, .null => .isFalse (fun h => nomatch h)
  | .str _, .list _ => .isFalse (fun h => nomatch h)
  | .str _, .dict _ => .isFalse (fun h => nomatch h)
  | .num _, .str _ => .isFalse (fun h => nomatch h)
  | .num _, .bool _ => .isFalse (fun h => nomatch h)
  | .num _, .null => .isFalse (fun h => nomatch h)
  | .num _, .list _ => .isFalse (fun h => nomatch h)
  | .num _, .dict _ => .isFalse (fun h => nomatch h)
  | .bool _, .str _ => .isFalse (fun h => nomatch h)
  | .bool _, .num _ => .isFalse (fun h => nomatch h)
  | .bool _, .null => .isFalse (fun h => nomatch h)
  | .bool _, .list _ => .isFalse (fun h => nomatch h)
  | .bool _, .dict _ => .isFalse (fun h => nomatch h)
  | .null, .str _ => .isFalse (fun h => nomatch h)
  | .null, .num _ => .isFalse (fun h => nomatch h)
  | .null, .bool _ => .isFalse (fun h => nomatch h)
  | .null, .list _ => .isFalse (fun h => nomatch h)
  | .null, .dict _ => .isFalse (fun h => nomatch h)
  | .list _, .str _ => .isFalse (fun h => nomatch h)
  | .list _, .num _ => .isFalse (fun h => nomatch h)
  | .list _, .bool _ => .isFalse (fun h => nomatch h)
  | .list _, .null => .isFalse (fun h => nomatch h)
  | .list _, .dict _ => .isFalse (fun h => nomatch h)
  | .dict _, .str _ => .isFalse (fun h => nomatch h)
  | .dict _, .num _ => .isFalse (fun h => nomatch h)
  | .dict _, .bool _ => .isFalse (fun h => nomatch h)
  | .dict _, .null => .isFalse (fun h => nomatch h)
  | .dict _, .list _ => .isFalse (fun h => nomatch h)

/-- Decidable equality on lists of `Val`. -/
def valDecEqList : (xs ys : List Val) → Decidable (xs = ys)
  | [], [] => .isTrue rfl
  | [], _ :: _ => .isFalse (fun h => nomatch h)
  | _ :: _, [] => .isFalse (fun h => nomatch h)
  | x :: xs, y :: ys =>
    match valDecEq x y with
    | .isFalse h => .isFalse (by intro hh; injection hh; contradiction)
    | .isTrue h1 =>
      match valDecEqList xs ys with
      | .isTrue h2 => .isTrue (by rw [h1, h2])
      | .isFalse h => .isFalse (by intro hh; injection hh; contradiction)

/-- Decidable equality on string-keyed association lists of `Val`. -/
def valDecEqKV : (xs ys : List (String × Val)) → Decidable (xs = ys)
  | [], [] => .isTrue rfl
  | [], _ :: _ => .isFalse (fun h => nomatch h)
  | _ :: _, [] => .isFalse (fun h => nomatch h)
  | (k, x) :: xs, (l, y) :: ys =>
    if hk : k = l then
      match valDecEq x y with
      | .isFalse h => .isFalse (by intro hh; injection hh with h1 h2; injection h1; contradiction)
      | .isTrue h1 =>
        match valDecEqKV xs ys with
        | .isTrue h2 => .isTrue (by rw [hk, h1, h2])
        | .isFalse h => .isFalse (by intro hh; injection hh; contradiction)
    else .isFalse (by intro hh; injection hh with h1 h2; injection h1; contradiction)

end

instance : DecidableEq Val := valDecEq

/-- The Python exception classes that the extractor raises or handles.
`parserError` models the repository's `ParserError`; the remaining
constructors model the corresponding builtin exception classes. -/
inductive PyErr where
  | keyError
  | typeError
  | valueError
  | attributeError
  | indexError
  | parserError (msg : String)
deriving DecidableEq

/-- Association lookup with string keys, modelling Python `dict` access on
a string-keyed dictionary (first binding wins; dictionaries built by the
code have unique keys). -/
def slookup : List (String × Val) → String → Option Val
  | [], _ => none
  | (k, v) :: r, key => if k = key then some v else slookup r key

/-- Association lookup with integer keys. -/
def alookup {α : Type} : List (Int × α) → Int → Option α
  | [], _ => none
  | (k, v) :: r, key => if k = key then some v else alookup r key

/-- Digit-string parsing helper for `pyStrToInt`. -/
def parseDigits (cs : List Char) : Option Nat :=
  if cs ≠ [] ∧ cs.all Char.isDigit then
    some (cs.foldl (fun a c => a * 10 + (c.toNat - 48)) 0)
  else
    none

/-- Models Python `int(s)` on a string: optional surrounding spaces, an
optional sign, then decimal digits; anything else raises `ValueError`
(returns `none` here). -/
def pyStrToInt (s : String) : Option Int :=
  let cs := ((s.toList.dropWhile (· = ' ')).reverse.dropWhile (· = ' ')).reverse
  match cs with
  | '+' :: rest => (parseDigits rest).map Int.ofNat
  | '-' :: rest => (parseDigits rest).map (fun n => -(n : Int))
  | rest => (parseDigits rest).map Int.ofNat

/-- Models Python `int(x)` on an arbitrary value: numbers and booleans
coerce, strings parse or raise `ValueError`, everything else raises
`TypeError`. -/
def pyInt : Val → Except PyErr Int
  | .num n => .ok n
  | .bool b => .ok (if b then 1 else 0)
  | .str s =>
    match pyStrToInt s with
    | some n => .ok n
    | none => .error .valueError
  | _ => .error .typeError

/-- Models Python `x[0]`: first element of a list or first character of a
string (`IndexError` when empty), `KeyError` on a string-keyed dictionary
(the integer key `0` is never present), `TypeError` otherwise. -/
def pyIndex0 : Val → Except PyErr Val
  | .list (h :: _) => .ok h
  | .list [] => .error .indexError
  | .str s =>
    match s.toList with
    | [] => .error .indexError
    | c :: _ => .ok (.str (String.mk [c]))
  | .dict _ => .error .keyError
  | _ => .error .typeError

/-- Models Python `x[key]` with a string key: dictionary lookup
(`KeyError` when absent), `TypeError` on any non-dictionary. -/
def pyGetItem (v : Val) (key : String) : Except PyErr Val :=
  match v with
  | .dict kvs =>
    match slookup kvs key with
    | some w => .ok w
    | none => .error .keyError
  | _ => .error .typeError

/-- Models Python iteration over a value: lists yield their elements,
dictionaries their keys, strings their characters; anything else raises
`TypeError`. -/
def pyIter : Val → Except PyErr (List Val)
  | .list xs => .ok xs
  | .dict kvs => .ok (kvs.map (fun kv => Val.str kv.1))
  | .str s => .ok (s.toList.map (fun c => Val.str (String.mk [c])))
  | _ => .error .typeError

/-- Models Python unpacking `a, b, c, d, e, f = x`: `TypeError` when `x`
is not iterable, `ValueError` when it does not have exactly six
elements. -/
def unpack6 (v : Val) : Except PyErr (Val × Val × Val × Val × Val × Val) :=
  match pyIter v with
  | .error e => .error e
  | .ok [a, b, c, d, e, f] => .ok (a, b, c, d, e, f)
  | .ok _ => .error .valueError

/-- Models Python `str.strip()`: drop leading and trailing whitespace
characters. -/
def pyStrip (s : String) : String :=
  String.mk (((s.toList.dropWhile Char.isWhitespace).reverse.dropWhile
    Char.isWhitespace).reverse)

/-- Models a `with suppress(KeyError, ValueError):` block around a
computation: a suppressed failure yields the supplied default (the
state of the mutable locals at block entry), other failures propagate. -/
def suppressKV {α : Type} (r : Except PyErr α) (dflt : α) : Except PyErr α :=
  match r with
  | .ok a => .ok a
  | .error .keyError => .ok dflt
  | .error .valueError => .ok dflt
  | .error e => .error e

/-- Modelled from the spec: the `Model` record of the out-of-scope data
module (`node id, name, optional extra parameters such as a companion
config name`).  `_get_model` fills `name` with the literal `ckpt_name`
value and optionally stores the `config_name` input as a parameter. -/
structure Model where
  model_id : Int
  name : Val
  config_name : Option Val
deriving DecidableEq

/-- Modelled from the spec: the `Prompt` record of the out-of-scope data
module (`originating node id, trimmed text value`). -/
structure Prompt where
  prompt_id : Int
  value : String
deriving DecidableEq

/-- Modelled from the spec: the `Sampler` record of the out-of-scope data
module (node id, sampler algorithm name, parameter mapping, optional
Model, positive and negative Prompt sequences).  The external
`normalize_parameters` collaborator is out of scope per the spec, so
`parameters` holds the raw (non-link) key/value pairs passed to it. -/
structure Sampler where
  sampler_id : Int
  name : Val
  parameters : List (String × Val)
  model : Option Model
  prompts : List Prompt
  negative_prompts : List Prompt
deriving DecidableEq

/-- The per-image graph data of `ImageContext`: the integer-keyed node
table (`self.prompt`, in insertion order) and the adjacency built from
the workflow links (`self.links`: consumer id to producers, each with the
set of link-type labels observed, both in insertion order). -/
structure Ctx where
  prompt : List (Int × Val)
  links : List (Int × List (Int × List Val))
deriving DecidableEq

/-- `SAMPLER_PARAMS` from `_comfyui.py`. -/
def samplerParams : List String := ["sampler_name", "steps", "cfg"]

/-- `POSITIVE_PROMPT_KEYS` from `_comfyui.py`. -/
def positivePromptKeys : List String := ["text", "positive"]

/-- `NEGATIVE_PROMPT_KEYS` from `_comfyui.py`. -/
def negativePromptKeys : List String := ["text", "negative"]

/-- `IGNORE_LINK_TYPES_PROMPT` from `_comfyui.py` (link-type labels are
`Val`s in this model). -/
def ignoreLinkTypesPrompt : List Val := [.str "CLIP"]

/-- Insert-or-update into an integer-keyed association list, keeping the
original key position on update (Python dict assignment semantics). -/
def upsert {α : Type} : List (Int × α) → Int → α → List (Int × α)
  | [], i, v => [(i, v)]
  | (k, w) :: r, i, v => if k = i then (k, v) :: r else (k, w) :: upsert r i v

/-- Models the comprehension `{int(k): v for k, v in prompt.items()}`:
coerces every key, returning `none` when some key is not
integer-coercible (Python `ValueError`). -/
def coerceKeys : List (String × Val) → List (Int × Val) → Option (List (Int × Val))
  | [], acc => some acc
  | (k, v) :: r, acc =>
    match pyStrToInt k with
    | none => none
    | some i => coerceKeys r (upsert acc i v)

/-- Add a link-type label to a set of labels, modelled as an insertion-
ordered duplicate-free list (`set.add`). -/
def insertType (tys : List Val) (t : Val) : List Val :=
  if t ∈ tys then tys else tys ++ [t]

/-- Inner update for `addLink`: register producer `o` with label `t` in a
consumer's producer map. -/
def addLinkInner : List (Int × List Val) → Int → Val → List (Int × List Val)
  | [], o, t => [(o, [t])]
  | (k, tys) :: r, o, t =>
    if k = o then (k, insertType tys t) :: r else (k, tys) :: addLinkInner r o t

/-- Models `self.links[int(input_id)][int(output_id)].add(link_type)` on
the nested `defaultdict`. -/
def addLink : List (Int × List (Int × List Val)) → Int → Int → Val → List (Int × List (Int × List Val))
  | [], i, o, t => [(i, addLinkInner [] o t)]
  | (k, inner) :: r, i, o, t =>
    if k = i then (k, addLinkInner inner o t) :: r else (k, inner) :: addLink r i o t

/-- The loop `for _, output_id, _, input_id, _, link_type in workflow["links"]`:
unpack each record, coerce consumer then producer id, and merge the link
into the adjacency. -/
def buildLinksAux : List Val → List (Int × List (Int × List Val)) →
    Except PyErr (List (Int × List (Int × List Val)))
  | [], acc => .ok acc
  | rec :: rest, acc => do
    let (_, oid, _, iid, _, lt) ← unpack6 rec
    let i ← pyInt iid
    let o ← pyInt oid
    buildLinksAux rest (addLink acc i o lt)

/-- Models the links-dictionary construction of `ImageContext.__init__`
(before its `except` clause maps failures to `ParserError`). -/
def buildLinks (workflow : Val) : Except PyErr (List (Int × List (Int × List Val))) := do
  let lv ← pyGetItem workflow "links"
  let items ← pyIter lv
  buildLinksAux items []

/-- Models `ImageContext.__init__`: coerce the node-table keys to
integers (`AttributeError`/`ValueError` become
`ParserError "prompt has unexpected format"`), then build the links
adjacency (`TypeError`/`KeyError`/`ValueError` become
`ParserError "workflow has unexpected format"`).  On failure nothing is
returned (no partial results). -/
def initContext (prompt workflow : Val) : Except PyErr Ctx :=
  match prompt with
  | .dict kvs =>
    match coerceKeys kvs [] with
    | none => .error (.parserError "prompt has unexpected format")
    | some table =>
      match buildLinks workflow with
      | .ok links => .ok ⟨table, links⟩
      | .error _ => .error (.parserError "workflow has unexpected format")
  | _ => .error (.parserError "prompt has unexpected format")

/-- The `isinstance(value, list)` test used to recognize link
references. -/
def Val.isList : Val → Bool
  | .list _ => true
  | _ => false

/-- Producers of a node: `self.links[node_id].items()` (the
`defaultdict` yields an empty mapping for unknown consumers). -/
def producersOf (ctx : Ctx) (nodeId : Int) : List (Int × List Val) :=
  (alookup ctx.links nodeId).getD []

/-- The producer loop of `traverse_inner`: for each `(link_id, link_types)`
entry, recurse when `link_id` is unvisited and at least one link type is
not ignored.  `descend` is the recursive call one level deeper; it is
`none` when the recursion depth is exhausted, in which case the loop is
abandoned (the swallowed `RecursionError`), keeping what was already
produced. -/
def traverseLoop (ign : List Val)
    (descend : Option (Int → List Int → List (Int × Val) × List Int)) :
    List (Int × List Val) → List Int → List (Int × Val) × List Int
  | [], vis => ([], vis)
  | (p, tys) :: rest, vis =>
    if p ∉ vis ∧ tys.filter (fun t => t ∉ ign) ≠ [] then
      match descend with
      | none => ([], vis)
      | some d =>
        ((d p vis).1 ++ (traverseLoop ign (some d) rest (d p vis).2).1,
         (traverseLoop ign (some d) rest (d p vis).2).2)
    else traverseLoop ign descend rest vis

/-- The body of `traverse_inner` for one node: mark the node visited,
yield it (together with the caller's continue/stop answer, modelled by
the pure decision function `dec`) when it is present in the node table,
and run the producer loop unless the caller answered stop-this-branch.
A node absent from the node table is not yielded (the `KeyError` raised
by `self.prompt[node_id]` before the `yield` is suppressed) but its
producers are still traversed. -/
def traverseBody (ctx : Ctx) (ign : List Val) (dec : Int → Val → Bool)
    (descend : Option (Int → List Int → List (Int × Val) × List Int))
    (nodeId : Int) (vis : List Int) : List (Int × Val) × List Int :=
  match alookup ctx.prompt nodeId with
  | none => traverseLoop ign descend (producersOf ctx nodeId) (nodeId :: vis)
  | some node =>
    if dec nodeId node then
      ((nodeId, node) :: (traverseLoop ign descend (producersOf ctx nodeId) (nodeId :: vis)).1,
       (traverseLoop ign descend (producersOf ctx nodeId) (nodeId :: vis)).2)
    else ([(nodeId, node)], nodeId :: vis)

/-- `traverse_inner` with an explicit remaining recursion depth `fuel`:
at depth zero no further descent is possible (a descent attempt would be
the `RecursionError` that the caller suppresses). -/
def traverseInner (ctx : Ctx) (ign : List Val) (dec : Int → Val → Bool) :
    Nat → Int → List Int → List (Int × Val) × List Int
  | 0, n, vis => traverseBody ctx ign dec none n vis
  | fuel + 1, n, vis => traverseBody ctx ign dec (some (traverseInner ctx ign dec fuel)) n vis

/-- Models `ImageContext._traverse(node_id, ignored_link_types)`: a fresh
visited set is created for each call (the `[]` below), the start node is
entered first, and the caller's continue/stop-this-branch answers are
given by the pure decision function `dec`.  Returns the yielded
`(node_id, node)` sequence and the final visited set. -/
def traverse (ctx : Ctx) (ign : List Val) (dec : Int → Val → Bool)
    (fuel : Nat) (start : Int) : List (Int × Val) × List Int :=
  traverseInner ctx ign dec fuel start []

/-- The always-continue decision of `_get_model`, which iterates the
generator with a plain `for` loop (so `recurse` is `None`, never
`False`). -/
def decContinue : Int → Val → Bool := fun _ _ => true

/-- The body of `_get_model`'s loop over one visited node: a `KeyError`
from a missing `inputs` or `ckpt_name` key skips the node; the first
node whose inputs contain `ckpt_name` is marked processed and becomes
the `Model` (with `config_name` attached when present); subscripting a
non-dictionary raises `TypeError`. -/
def getModelLoop : List (Int × Val) → List Int → Except PyErr (Option Model × List Int)
  | [], proc => .ok (none, proc)
  | (i, nd) :: rest, proc =>
    match nd with
    | .dict kvs =>
      match slookup kvs "inputs" with
      | none => getModelLoop rest proc
      | some (.dict ikvs) =>
        match slookup ikvs "ckpt_name" with
        | none => getModelLoop rest proc
        | some ck => .ok (some ⟨i, ck, slookup ikvs "config_name"⟩, i :: proc)
      | some _ => .error .typeError
    | _ => .error .typeError

/-- Models `ImageContext._get_model(initial_node_id)` together with its
effect on `self.processed_nodes`: walk backward with no ignored link
types and return the first model found, if any. -/
def getModel (ctx : Ctx) (fuel : Nat) (start : Int) (proc : List Int) :
    Except PyErr (Option Model × List Int) :=
  getModelLoop (traverse ctx [] decContinue fuel start).1 proc

/-- The prompt texts contributed by one node's inputs in `check_inputs`:
one `Prompt` per key of `text_keys` whose value is a literal string, in
key order, carrying the visiting node's id and the stripped text. -/
def promptContribs (keys : List String) (i : Int) (ikvs : List (String × Val)) : List Prompt :=
  keys.filterMap fun k =>
    match slookup ikvs k with
    | some (.str s) => some ⟨i, pyStrip s⟩
    | _ => none

/-- The continue/stop decision sent back by `_get_prompts` for a visited
node: stop-this-branch exactly when at least one prompt text was found.
Nodes without an `inputs` mapping answer continue (for ill-typed nodes
the iteration aborts with an exception before any answer is sent, so the
value chosen here is irrelevant; see `getPromptsLoop`). -/
def promptRecurse (keys : List String) (i : Int) (nd : Val) : Bool :=
  match nd with
  | .dict kvs =>
    match slookup kvs "inputs" with
    | some (.dict ikvs) => promptContribs keys i ikvs = []
    | _ => true
  | _ => true

/-- The consumption loop of `_get_prompts` over the visited sequence:
accumulate prompt contributions in visitation order, mark contributing
nodes processed; a visited node that is not a dictionary, or whose
`inputs` value is not a dictionary, raises `TypeError` (only `KeyError`
is caught there), aborting the walk. -/
def getPromptsLoop (keys : List String) :
    List (Int × Val) → List Prompt → List Int → Except PyErr (List Prompt × List Int)
  | [], ps, proc => .ok (ps, proc)
  | (i, nd) :: rest, ps, proc =>
    match nd with
    | .dict kvs =>
      match slookup kvs "inputs" with
      | none => getPromptsLoop keys rest ps proc
      | some (.dict ikvs) =>
        let found := promptContribs keys i ikvs
        if found = [] then getPromptsLoop keys rest ps proc
        else getPromptsLoop keys rest (ps ++ found) (i :: proc)
      | some _ => .error .typeError
    | _ => .error .typeError

/-- Models `ImageContext._get_prompts(initial_node_id, text_keys)`
together with its effect on `self.processed_nodes`: walk backward with
link type `CLIP` ignored, the two-way generator protocol modelled by the
pure decision `promptRecurse` plus a replay of the per-node inspection
over the yielded sequence. -/
def getPrompts (ctx : Ctx) (fuel : Nat) (start : Int) (keys : List String)
    (proc : List Int) : Except PyErr (List Prompt × List Int) :=
  getPromptsLoop keys (traverse ctx ignoreLinkTypesPrompt (promptRecurse keys) fuel start).1 [] proc

/-- Whether a JSON value is hashable in Python: strings, numbers,
booleans and `None` are, lists and dictionaries are not. -/
def hashable : Val → Bool
  | .str _ => true
  | .num _ => true
  | .bool _ => true
  | .null => true
  | .list _ => false
  | .dict _ => false

/-- The qualification test `SAMPLER_PARAMS.issubset(node["inputs"])` with
its `except (KeyError, TypeError)` guard: a mapping qualifies when its
key set contains the three sampler keys.  For a list, `issubset` builds
a set from it first, hashing every element: a list with an unhashable
element raises `TypeError` inside the guarded test and is silently
disqualified, and an all-hashable list qualifies when it contains the
three key strings as elements.  Strings never qualify (their elements
are single characters); everything else raises `TypeError` from the
set conversion, which is caught. -/
def isSamplerNode (node : Val) : Bool :=
  match node with
  | .dict kvs =>
    match slookup kvs "inputs" with
    | some (.dict ikvs) => samplerParams.all (fun k => (slookup ikvs k).isSome)
    | some (.list xs) =>
      xs.all hashable && samplerParams.all (fun k => xs.contains (.str k))
    | _ => false
  | _ => false

/-- Remove one key from an inputs mapping (`inputs.pop`). -/
def eraseKey (kvs : List (String × Val)) (key : String) : List (String × Val) :=
  kvs.filter (fun kv => kv.1 ≠ key)

/-- The model-resolution step of `_try_get_sampler`:
`with suppress(KeyError, ValueError): model_id = int(inputs["model"][0]);
sampler.model = self._get_model(model_id)`.  A suppressed failure leaves
the model absent and the processed set as it was. -/
def samplerModelStep (ctx : Ctx) (fuel : Nat) (rest : List (String × Val))
    (proc : List Int) : Except PyErr (Option Model × List Int) :=
  suppressKV (do
    let v ← pyGetItem (.dict rest) "model"
    let h ← pyIndex0 v
    let mid ← pyInt h
    getModel ctx fuel mid proc) (none, proc)

/-- The positive/negative prompt-resolution step of `_try_get_sampler`:
`with suppress(KeyError, ValueError): ... = int(inputs[key][0]);
... = self._get_prompts(..., text_keys)`. -/
def samplerPromptStep (ctx : Ctx) (fuel : Nat) (rest : List (String × Val))
    (key : String) (tkeys : List String) (proc : List Int) :
    Except PyErr (List Prompt × List Int) :=
  suppressKV (do
    let v ← pyGetItem (.dict rest) key
    let h ← pyIndex0 v
    let pid ← pyInt h
    getPrompts ctx fuel pid tkeys proc) ([], proc)

/-- The tail of `_try_get_sampler` for a qualifying node whose `inputs`
is a mapping: pop `sampler_name` (`eraseKey`), keep the non-link inputs
as raw parameters, then resolve the model and the positive and negative
prompts by the suppressed steps, threading the processed set. -/
def samplerChain (ctx : Ctx) (fuel : Nat) (nodeId : Int) (sname : Val)
    (ikvs : List (String × Val)) (proc : List Int) :
    Except PyErr (Option Sampler × List Int) :=
  match samplerModelStep ctx fuel (eraseKey ikvs "sampler_name") (nodeId :: proc) with
  | .error e => .error e
  | .ok (mdl, proc1) =>
    match samplerPromptStep ctx fuel (eraseKey ikvs "sampler_name")
        "positive" positivePromptKeys proc1 with
    | .error e => .error e
    | .ok (pos, proc2) =>
      match samplerPromptStep ctx fuel (eraseKey ikvs "sampler_name")
          "negative" negativePromptKeys proc2 with
      | .error e => .error e
      | .ok (negs, proc3) =>
        .ok (some ⟨nodeId, sname,
          (eraseKey ikvs "sampler_name").filter (fun kv => ¬ kv.2.isList),
          mdl, pos, negs⟩, proc3)

/-- The error raised by `dict(seq)` on a sequence of values, scanning
the elements in order and stopping at the first one that is not a valid
key-value pair: a two-character string is a valid pair (its characters),
a string of any other length raises `ValueError` (wrong sequence
length), a number, boolean or `None` is not iterable and raises
`TypeError`, a two-element list is a valid pair when its head (the key)
is hashable and raises `TypeError` otherwise, a list of any other
length raises `ValueError`, and a dictionary element is iterated as its
keys, a valid pair exactly when it has two entries.  `none` means the
conversion succeeds. -/
def dictSeqErr : List Val → Option PyErr
  | [] => none
  | .str s :: rest => if s.length = 2 then dictSeqErr rest else some .valueError
  | .num _ :: _ => some .typeError
  | .bool _ :: _ => some .typeError
  | .null :: _ => some .typeError
  | .list [a, _] :: rest => if hashable a then dictSeqErr rest else some .typeError
  | .list _ :: _ => some .valueError
  | .dict dkvs :: rest => if dkvs.length = 2 then dictSeqErr rest else some .valueError

/-- Models `ImageContext._try_get_sampler(node_id, node)` together with
its effect on `self.processed_nodes`.  A non-qualifying node is skipped
silently.  A qualifying node is marked processed; then
`dict(node["inputs"])` is taken: when the qualifying `inputs` is a list
the conversion always raises uncaught — the list is all-hashable (the
guarded `issubset` would have raised `TypeError` otherwise) and
contains the key string `"sampler_name"`, which is not a pair, so the
element scan of `dictSeqErr` stops with `TypeError` or `ValueError` at
or before it, and the `none` arm of the match is unreachable under the
qualification guard.  For a mapping, `sampler_name` is popped and the
rest of the work is done by `samplerChain`. -/
def tryGetSampler (ctx : Ctx) (fuel : Nat) (proc : List Int) (nodeId : Int)
    (node : Val) : Except PyErr (Option Sampler × List Int) :=
  if ¬ isSamplerNode node then .ok (none, proc)
  else
    match node with
    | .dict kvs =>
      match slookup kvs "inputs" with
      | some (.dict ikvs) =>
        match slookup ikvs "sampler_name" with
        | none => .error .keyError
        | some sname => samplerChain ctx fuel nodeId sname ikvs proc
      | some (.list xs) =>
        match dictSeqErr xs with
        | some e => .error e
        | none => .ok (none, nodeId :: proc)
      | some _ => .ok (none, nodeId :: proc)
      | none => .ok (none, nodeId :: proc)
    | _ => .ok (none, nodeId :: proc)

/-- Pass 1 of `ImageContext.extract`: try every node of the table in
order, collecting the samplers and threading the processed set. -/
def pass1 (ctx : Ctx) (fuel : Nat) :
    List (Int × Val) → List Int → Except PyErr (List Sampler × List Int)
  | [], proc => .ok ([], proc)
  | (i, nd) :: rest, proc => do
    let r ← tryGetSampler ctx fuel proc i nd
    let r2 ← pass1 ctx fuel rest r.2
    .ok ((match r.1 with | some s => [s] | none => []) ++ r2.1, r2.2)

/-- Pass 2 of `ImageContext.extract` for one unprocessed node: collect
the literal (non-list) inputs under key `(class_type, node_id)` when
non-empty; a missing `inputs` or `class_type` key (`KeyError`) or a
non-mapping `inputs` value (`AttributeError` from `.items()`) skips the
node silently, but a node value that is not a dictionary raises
`TypeError`, which the surrounding `suppress` does not catch. -/
def pass2Node (nodeId : Int) (node : Val) :
    Except PyErr (Option ((Val × Int) × List (String × Val)))
  :=
  match node with
  | .dict kvs =>
    match slookup kvs "inputs" with
    | none => .ok none
    | some (.dict ikvs) =>
      if ikvs.filter (fun kv => ¬ kv.2.isList) = [] then .ok none
      else
        match slookup kvs "class_type" with
        | none => .ok none
        | some ct => .ok (some ((ct, nodeId), ikvs.filter (fun kv => ¬ kv.2.isList)))
    | some _ => .ok none
  | _ => .error .typeError

/-- Pass 2 of `ImageContext.extract`: every node of the table not in the
processed set contributes its metadata entry, in table order. -/
def pass2 : List (Int × Val) → List Int →
    Except PyErr (List ((Val × Int) × List (String × Val)))
  | [], _ => .ok []
  | (i, nd) :: rest, proc =>
    if i ∈ proc then pass2 rest proc
    else do
      let e ← pass2Node i nd
      let m ← pass2 rest proc
      .ok ((match e with | some kv => [kv] | none => []) ++ m)

/-- Models `ImageContext.extract(parser, prompt, workflow)`: build the
graph (fatal `ParserError` on malformed input), run pass 1 to collect
samplers and pass 2 to collect leftover metadata. -/
def extract (prompt workflow : Val) (fuel : Nat) :
    Except PyErr (List Sampler × List ((Val × Int) × List (String × Val))) := do
  let ctx ← initContext prompt workflow
  let r1 ← pass1 ctx fuel ctx.prompt []
  let md ← pass2 ctx.prompt r1.2
  .ok (r1.1, md)

/-! Spec-side predicates and derived notions used to state the claims. -/

/-- A benign node shape for walks: a dictionary whose `inputs` member, if
present, is a dictionary.  This is the node-object shape guaranteed by
the spec's input contract; the walk helpers raise `TypeError` outside
it. -/
def nodeOk (nd : Val) : Bool :=
  match nd with
  | .dict kvs =>
    match slookup kvs "inputs" with
    | none => true
    | some (.dict _) => true
    | some _ => false
  | _ => false

/-- A `model`/`positive`/`negative` input value on which the link-slot
read `int(inputs[k][0])` cannot raise an uncaught exception: a
dictionary (`KeyError`, suppressed), a non-empty string, or a non-empty
list with a string/number/boolean head (`int` then succeeds or raises a
suppressed `ValueError`). -/
def linkSlotSafe : Val → Bool
  | .dict _ => true
  | .str s => s ≠ ""
  | .list (h :: _) =>
    match h with
    | .str _ => true
    | .num _ => true
    | .bool _ => true
    | _ => false
  | _ => false

/-- A node on which extraction can only encounter the recoverable
conditions enumerated by the spec (missing keys, dangling links, absent
model/prompts): a dictionary whose `inputs`, if present, is a dictionary
whose `model`/`positive`/`negative` entries, if present, are
`linkSlotSafe`. -/
def safeNode (nd : Val) : Bool :=
  match nd with
  | .dict kvs =>
    match slookup kvs "inputs" with
    | none => true
    | some (.dict ikvs) =>
      ["model", "positive", "negative"].all fun k =>
        match slookup ikvs k with
        | none => true
        | some w => linkSlotSafe w
    | some _ => false
  | _ => false

/-- Whether a visited `(id, node)` pair is a model node: its inputs
contain the key `ckpt_name` (C3). -/
def hasCkptName (e : Int × Val) : Bool :=
  match e.2 with
  | .dict kvs =>
    match slookup kvs "inputs" with
    | some (.dict ikvs) => (slookup ikvs "ckpt_name").isSome
    | _ => false
  | _ => false

/-- The `Model` record built from a model node (C3): name is the literal
`ckpt_name` value, `config_name` attached when present. -/
def modelOfNode (e : Int × Val) : Model :=
  match e.2 with
  | .dict kvs =>
    match slookup kvs "inputs" with
    | some (.dict ikvs) =>
      ⟨e.1, (slookup ikvs "ckpt_name").getD .null, slookup ikvs "config_name"⟩
    | _ => ⟨e.1, .null, none⟩
  | _ => ⟨e.1, .null, none⟩

/-- The prompt contributions of one visited `(id, node)` pair (C4). -/
def nodeContribs (keys : List String) (e : Int × Val) : List Prompt :=
  match e.2 with
  | .dict kvs =>
    match slookup kvs "inputs" with
    | some (.dict ikvs) => promptContribs keys e.1 ikvs
    | _ => []
  | _ => []

/-- An edge of the traversal relation (C5): `b` is a producer of `a` and
the set of link types between them is not contained in the ignored set
(at least one non-ignored label). -/
def edgeOk (ctx : Ctx) (ign : List Val) (a b : Int) : Prop :=
  ∃ tys, (b, tys) ∈ producersOf ctx a ∧ tys.filter (fun t => t ∉ ign) ≠ []

/-- Reachability from `start` along non-ignored edges (C5). -/
inductive ReachOk (ctx : Ctx) (ign : List Val) (start : Int) : Int → Prop where
  | refl : ReachOk ctx ign start start
  | tail {a b : Int} : ReachOk ctx ign start a → edgeOk ctx ign a b → ReachOk ctx ign start b

/-- All node ids that occur as producers in the adjacency: every descent
of the traversal enters one of these. -/
def candIds (ctx : Ctx) : List Int :=
  ((ctx.links.map (fun e => e.2.map Prod.fst)).flatten).dedup

/-- A sufficient recursion depth for the traversal of a given graph
(C1): one level per distinct producer id. -/
def fuelBound (ctx : Ctx) : Nat := (candIds ctx).length

/-- How many producer ids are not yet visited: the traversal's recursion
depth below a call with visited set `vis` is bounded by this number. -/
def countNew (ctx : Ctx) (vis : List Int) : Nat :=
  ((candIds ctx).filter (fun i => i ∉ vis)).length

/-- The descent continuation available at a given recursion depth. -/
def descendOf (ctx : Ctx) (ign : List Val) (dec : Int → Val → Bool) :
    Nat → Option (Int → List Int → List (Int × Val) × List Int)
  | 0 => none
  | fuel + 1 => some (traverseInner ctx ign dec fuel)

/-!
The alpha-channel LSB extractor of
`_steganographic_alpha_channel.py` (claim C10).
-/

/-- The mutable state of `LSBExtractor`.  The nested pixel-row list built
in `__init__` is abstracted by the function `data` (row, column, channel
index to channel value); `dim` is fixed at 4 and the alpha channel read
is `data[row][col][dim - 1] & 1`. -/
structure LSB where
  data : Nat → Nat → Nat → Nat
  width : Nat
  height : Nat
  dim : Nat
  bits : Nat
  byte : Nat
  row : Nat
  col : Nat

/-- Models `LSBExtractor._extract_next_bit`: when the cursor is in range,
shift the least significant bit of the alpha channel into `byte`,
increment `bits` and advance the cursor (row-major down each column,
then next column); otherwise do nothing. -/
def extractNextBit (st : LSB) : LSB :=
  if st.row < st.height ∧ st.col < st.width then
    let bit := st.data st.row st.col (st.dim - 1) % 2
    let st := { st with bits := st.bits + 1, byte := st.byte * 2 + bit, row := st.row + 1 }
    if st.row = st.height then { st with row := 0, col := st.col + 1 } else st
  else st

/-- Models `LSBExtractor.get_one_byte` with an explicit step budget for
the `while self.bits < 8` loop: `none` means the budget was exhausted
with the loop still running (the loop body does not terminate on its
own once the pixel cursor is out of range). -/
def getOneByte : Nat → LSB → Option (Nat × LSB)
  | 0, st => if st.bits < 8 then none else some (st.byte, { st with bits := 0, byte := 0 })
  | steps + 1, st =>
    if st.bits < 8 then getOneByte steps (extractNextBit st)
    else some (st.byte, { st with bits := 0, byte := 0 })

/-- Models `LSBExtractor.get_next_n_bytes(n)`: `n` calls to
`get_one_byte` (a returned byte is a one-element bytearray, never
falsy, so the `if not byte: break` guard never fires). -/
def getNextNBytes (steps : Nat) : Nat → LSB → Option (List Nat × LSB)
  | 0, st => some ([], st)
  | n + 1, st =>
    match getOneByte steps st with
    | none => none
    | some (b, st') =>
      match getNextNBytes steps n st' with
      | none => none
      | some (bs, st'') => some (b :: bs, st'')

/-! Concrete inputs used by witnesses and counterexamples. -/

/-- The inputs mapping of the walkthrough scenario's sampler node. -/
def scenInputs1 : List (String × Val) :=
  [("sampler_name", .str "Euler"), ("steps", .num 20), ("cfg", .num 7),
   ("model", .list [.num 2, .num 0]), ("positive", .list [.num 3, .num 0]),
   ("negative", .list [.num 4, .num 0])]

/-- The member list of the walkthrough scenario's sampler node. -/
def scenNode1Kvs : List (String × Val) :=
  [("class_type", .str "KSampler"), ("inputs", .dict scenInputs1)]

/-- The sampler node of the spec's walkthrough scenario. -/
def scenNode1 : Val := .dict scenNode1Kvs

/-- The member list of a leftover metadata node (`Note`). -/
def noteKvs : List (String × Val) :=
  [("class_type", .str "Note"), ("inputs", .dict [("foo", .str "bar")])]

/-- The checkpoint-loader node of the walkthrough scenario. -/
def scenNode2 : Val := .dict
  [("class_type", .str "CheckpointLoader"),
   ("inputs", .dict [("ckpt_name", .str "modelA")])]

/-- The positive text node of the walkthrough scenario. -/
def scenNode3 : Val := .dict
  [("class_type", .str "CLIPTextEncode"), ("inputs", .dict [("text", .str "cat")])]

/-- The negative text node of the walkthrough scenario. -/
def scenNode4 : Val := .dict
  [("class_type", .str "CLIPTextEncode"), ("inputs", .dict [("text", .str "dog")])]

/-- The walkthrough scenario's prompt document. -/
def scenPrompt : Val :=
  .dict [("1", scenNode1), ("2", scenNode2), ("3", scenNode3), ("4", scenNode4)]

/-- The walkthrough scenario's workflow document. -/
def scenWorkflow : Val := .dict
  [("links", .list
    [.list [.num 1, .num 2, .num 0, .num 1, .num 0, .str "MODEL"],
     .list [.num 2, .num 3, .num 0, .num 1, .num 0, .str "CONDITIONING"],
     .list [.num 3, .num 4, .num 0, .num 1, .num 0, .str "CONDITIONING"]])]

/-- The graph context built from the walkthrough scenario. -/
def scenCtx : Ctx :=
  ⟨[(1, scenNode1), (2, scenNode2), (3, scenNode3), (4, scenNode4)],
   [(1, [(2, [.str "MODEL"]), (3, [.str "CONDITIONING"]), (4, [.str "CONDITIONING"])])]⟩

/-- The sampler record extracted from the walkthrough scenario. -/
def scenSampler : Sampler :=
  ⟨1, .str "Euler", [("steps", .num 20), ("cfg", .num 7)],
   some ⟨2, .str "modelA", none⟩, [⟨3, "cat"⟩], [⟨4, "dog"⟩]⟩

/-- A prompt document whose single node has a list-valued `inputs`
containing the three sampler key strings (C2 counterexample). -/
def c2cxPrompt : Val := .dict
  [("1", .dict [("class_type", .str "X"),
     ("inputs", .list [.str "sampler_name", .str "steps", .str "cfg"])])]

/-- A workflow document with an empty link list. -/
def emptyWorkflow : Val := .dict [("links", .list [])]

/-- A two-node graph with a cycle (C1 witness). -/
def exCycleCtx : Ctx :=
  ⟨[(1, .dict []), (2, .dict [])],
   [(1, [(2, [.str "A"])]), (2, [(1, [.str "A"])])]⟩

/-- A graph whose traversal start id is missing from the node table
(C6 counterexample). -/
def exMissingCtx : Ctx := ⟨[(2, scenNode3)], [(1, [(2, [.str "X"])])]⟩

/-- A graph whose only edge carries the ignored link type `CLIP`
(C5 witness). -/
def clipCtx : Ctx := ⟨[(1, .dict []), (2, .dict [])], [(1, [(2, [.str "CLIP"])])]⟩

/-- An extractor state whose pixel cursor is exhausted (`col = width`)
with three bits buffered (C10 witness). -/
def lsbStuck : LSB := ⟨fun _ _ _ => 1, 2, 3, 4, 5, 0, 0, 2⟩

/-! Traversal lemmas. -/

theorem traverseLoop_none_snd (ign : List Val) :
    ∀ (prods : List (Int × List Val)) (vis : List Int),
      (traverseLoop ign none prods vis).2 = vis := by
  intro prods
  induction prods with
  | nil => intro vis; rfl
  | cons pe rest ih =>
    intro vis
    obtain ⟨p, tys⟩ := pe
    simp only [traverseLoop]
    split
    · rfl
    · exact ih vis

theorem traverseLoop_none_fst (ign : List Val) :
    ∀ (prods : List (Int × List Val)) (vis : List Int),
      (traverseLoop ign none prods vis).1 = [] := by
  intro prods
  induction prods with
  | nil => intro vis; rfl
  | cons pe rest ih =>
    intro vis
    obtain ⟨p, tys⟩ := pe
    simp only [traverseLoop]
    split
    · rfl
    · exact ih vis

theorem traverseLoop_some_mono (ign : List Val)
    (d : Int → List Int → List (Int × Val) × List Int)
    (hd : ∀ p vis, vis ⊆ (d p vis).2) :
    ∀ (prods : List (Int × List Val)) (vis : List Int),
      vis ⊆ (traverseLoop ign (some d) prods vis).2 := by
  intro prods
  induction prods with
  | nil => intro vis; exact fun a h => h
  | cons pe rest ih =>
    intro vis
    obtain ⟨p, tys⟩ := pe
    simp only [traverseLoop]
    split
    · exact (hd p vis).trans (ih _)
    · exact ih vis

theorem traverseBody_mono (ctx : Ctx) (ign : List Val) (dec : Int → Val → Bool)
    (descend : Option (Int → List Int → List (Int × Val) × List Int))
    (hd : ∀ d, descend = some d → ∀ p vis, vis ⊆ (d p vis).2) :
    ∀ (n : Int) (vis : List Int),
      n :: vis ⊆ (traverseBody ctx ign dec descend n vis).2 := by
  intro n vis
  match descend with
  | none =>
    simp only [traverseBody]
    split
    · rw [traverseLoop_none_snd]; exact fun a h => h
    · split
      · rw [traverseLoop_none_snd]; exact fun a h => h
      · exact fun a h => h
  | some d =>
    simp only [traverseBody]
    split
    · exact traverseLoop_some_mono ign d (hd d rfl) _ _
    · split
      · exact traverseLoop_some_mono ign d (hd d rfl) _ _
      · exact fun a h => h

theorem traverseInner_mono (ctx : Ctx) (ign : List Val) (dec : Int → Val → Bool) :
    ∀ (fuel : Nat) (n : Int) (vis : List Int),
      n :: vis ⊆ (traverseInner ctx ign dec fuel n vis).2 := by
  intro fuel
  induction fuel with
  | zero =>
    intro n vis
    exact traverseBody_mono ctx ign dec none (fun d h => nomatch h) n vis
  | succ f ih =>
    intro n vis
    refine traverseBody_mono ctx ign dec _ ?_ n vis
    intro d hd p vis'
    cases hd
    exact fun a h => (ih p vis') (List.mem_cons_of_mem _ h)

theorem traverseLoop_some_yield_lookup (ctx : Ctx) (ign : List Val)
    (d : Int → List Int → List (Int × Val) × List Int)
    (hd : ∀ p vis i nd, (i, nd) ∈ (d p vis).1 → alookup ctx.prompt i = some nd) :
    ∀ (prods : List (Int × List Val)) (vis : List Int) (i : Int) (nd : Val),
      (i, nd) ∈ (traverseLoop ign (some d) prods vis).1 →
      alookup ctx.prompt i = some nd := by
  intro prods
  induction prods with
  | nil => intro vis i nd h; exact absurd h (by simp [traverseLoop])
  | cons pe rest ih =>
    intro vis i nd h
    obtain ⟨p, tys⟩ := pe
    simp only [traverseLoop] at h
    split at h
    · rcases List.mem_append.mp h with h1 | h2
      · exact hd p vis i nd h1
      · exact ih _ i nd h2
    · exact ih vis i nd h

theorem traverseBody_yield_lookup (ctx : Ctx) (ign : List Val) (dec : Int → Val → Bool)
    (descend : Option (Int → List Int → List (Int × Val) × List Int))
    (hd : ∀ d, descend = some d → ∀ p vis i nd, (i, nd) ∈ (d p vis).1 →
      alookup ctx.prompt i = some nd) :
    ∀ (n : Int) (vis : List Int) (i : Int) (nd : Val),
      (i, nd) ∈ (traverseBody ctx ign dec descend n vis).1 →
      alookup ctx.prompt i = some nd := by
  intro n vis i nd h
  match descend with
  | none =>
    simp only [traverseBody] at h
    split at h
    · rw [traverseLoop_none_fst] at h; exact absurd h (List.not_mem_nil _)
    · split at h
      · rcases List.mem_cons.mp h with h1 | h2
        · cases h1
          assumption
        · rw [traverseLoop_none_fst] at h2; exact absurd h2 (List.not_mem_nil _)
      · rcases List.mem_singleton.mp h with h1
        cases h1
        assumption
  | some d =>
    simp only [traverseBody] at h
    split at h
    · exact traverseLoop_some_yield_lookup ctx ign d (hd d rfl) _ _ i nd h
    · split at h
      · rcases List.mem_cons.mp h with h1 | h2
        · cases h1
          assumption
        · exact traverseLoop_some_yield_lookup ctx ign d (hd d rfl) _ _ i nd h2
      · rcases List.mem_singleton.mp h with h1
        cases h1
        assumption

theorem traverseInner_yield_lookup (ctx : Ctx) (ign : List Val) (dec : Int → Val → Bool) :
    ∀ (fuel : Nat) (n : Int) (vis : List Int) (i : Int) (nd : Val),
      (i, nd) ∈ (traverseInner ctx ign dec fuel n vis).1 →
      alookup ctx.prompt i = some nd := by
  intro fuel
  induction fuel with
  | zero =>
    intro n vis i nd h
    exact traverseBody_yield_lookup ctx ign dec none
      (fun d h => nomatch h) n vis i nd h
  | succ f ih =>
    intro n vis i nd h
    refine traverseBody_yield_lookup ctx ign dec _ ?_ n vis i nd h
    intro d hd p vis' j nj hj
    cases hd
    exact ih p vis' j nj hj

theorem traverseLoop_some_nodup (ign : List Val)
    (d : Int → List Int → List (Int × Val) × List Int)
    (hmono : ∀ p vis, vis ⊆ (d p vis).2)
    (hd : ∀ p vis, p ∉ vis →
      ((d p vis).1.map Prod.fst).Nodup ∧
      ∀ i ∈ (d p vis).1.map Prod.fst, i ∉ vis ∧ i ∈ (d p vis).2) :
    ∀ (prods : List (Int × List Val)) (vis : List Int),
      ((traverseLoop ign (some d) prods vis).1.map Prod.fst).Nodup ∧
      ∀ i ∈ (traverseLoop ign (some d) prods vis).1.map Prod.fst,
        i ∉ vis ∧ i ∈ (traverseLoop ign (some d) prods vis).2 := by
  intro prods
  induction prods with
  | nil =>
    intro vis
    constructor
    · simp [traverseLoop]
    · intro i h
      simp [traverseLoop] at h
  | cons pe rest ih =>
    intro vis
    obtain ⟨p, tys⟩ := pe
    simp only [traverseLoop]
    split
    case isTrue hguard =>
      have hp : p ∉ vis := hguard.1
      obtain ⟨hnd1, hmem1⟩ := hd p vis hp
      obtain ⟨hnd2, hmem2⟩ := ih ((d p vis).2)
      constructor
      · rw [List.map_append]
        refine List.Nodup.append hnd1 hnd2 ?_
        intro a ha1 ha2
        exact ((hmem2 a ha2).1) ((hmem1 a ha1).2)
      · intro i hi
        rw [List.map_append, List.mem_append] at hi
        rcases hi with h1 | h2
        · obtain ⟨hnv, hv⟩ := hmem1 i h1
          exact ⟨hnv, traverseLoop_some_mono ign d hmono rest _ hv⟩
        · obtain ⟨hnv, hv⟩ := hmem2 i h2
          exact ⟨fun hin => hnv (hmono p vis hin), hv⟩
    case isFalse => exact ih vis

theorem traverseBody_nodup (ctx : Ctx) (ign : List Val) (dec : Int → Val → Bool)
    (descend : Option (Int → List Int → List (Int × Val) × List Int))
    (hmono : ∀ d, descend = some d → ∀ p vis, vis ⊆ (d p vis).2)
    (hd : ∀ d, descend = some d → ∀ p vis, p ∉ vis →
      ((d p vis).1.map Prod.fst).Nodup ∧
      ∀ i ∈ (d p vis).1.map Prod.fst, i ∉ vis ∧ i ∈ (d p vis).2) :
    ∀ (n : Int) (vis : List Int), n ∉ vis →
      ((traverseBody ctx ign dec descend n vis).1.map Prod.fst).Nodup ∧
      ∀ i ∈ (traverseBody ctx ign dec descend n vis).1.map Prod.fst,
        i ∉ vis ∧ i ∈ (traverseBody ctx ign dec descend n vis).2 := by
  intro n vis hn
  match descend with
  | none =>
    simp only [traverseBody]
    split
    · rw [traverseLoop_none_fst]
      exact ⟨List.nodup_nil, fun i h => absurd h (List.not_mem_nil _)⟩
    · split
      · rw [traverseLoop_none_fst, traverseLoop_none_snd]
        constructor
        · simp
        · intro i hi
          simp only [List.map_cons, List.map_nil, List.mem_singleton] at hi
          subst hi
          exact ⟨hn, List.mem_cons_self _ _⟩
      · constructor
        · simp
        · intro i hi
          simp only [List.map_cons, List.map_nil, List.mem_singleton] at hi
          subst hi
          exact ⟨hn, List.mem_cons_self _ _⟩
  | some d =>
    have hm := hmono d rfl
    have hinv := hd d rfl
    simp only [traverseBody]
    split
    · obtain ⟨h1, h2⟩ := traverseLoop_some_nodup ign d hm hinv (producersOf ctx n) (n :: vis)
      refine ⟨h1, fun i hi => ?_⟩
      obtain ⟨hnv, hv⟩ := h2 i hi
      exact ⟨fun hvv => hnv (List.mem_cons_of_mem _ hvv), hv⟩
    · split
      · obtain ⟨h1, h2⟩ := traverseLoop_some_nodup ign d hm hinv (producersOf ctx n) (n :: vis)
        constructor
        · simp only [List.map_cons]
          refine List.nodup_cons.mpr ⟨fun hmm => ?_, h1⟩
          exact (h2 n hmm).1 (List.mem_cons_self _ _)
        · intro i hi
          simp only [List.map_cons, List.mem_cons] at hi
          rcases hi with hi | hi
          · subst hi
            exact ⟨hn, traverseLoop_some_mono ign d hm _ _ (List.mem_cons_self _ _)⟩
          · obtain ⟨hnv, hv⟩ := h2 i hi
            exact ⟨fun hvv => hnv (List.mem_cons_of_mem _ hvv), hv⟩
      · constructor
        · simp
        · intro i hi
          simp only [List.map_cons, List.map_nil, List.mem_singleton] at hi
          subst hi
          exact ⟨hn, List.mem_cons_self _ _⟩

theorem traverseInner_nodup (ctx : Ctx) (ign : List Val) (dec : Int → Val → Bool) :
    ∀ (fuel : Nat) (n : Int) (vis : List Int), n ∉ vis →
      ((traverseInner ctx ign dec fuel n vis).1.map Prod.fst).Nodup ∧
      ∀ i ∈ (traverseInner ctx ign dec fuel n vis).1.map Prod.fst,
        i ∉ vis ∧ i ∈ (traverseInner ctx ign dec fuel n vis).2 := by
  intro fuel
  induction fuel with
  | zero =>
    intro n vis hn
    exact traverseBody_nodup ctx ign dec none
      (fun d h => nomatch h) (fun d h => nomatch h) n vis hn
  | succ f ih =>
    intro n vis hn
    refine traverseBody_nodup ctx ign dec _ ?_ ?_ n vis hn
    · intro d hd p vis'
      cases hd
      exact fun a ha => (traverseInner_mono ctx ign dec f p vis') (List.mem_cons_of_mem _ ha)
    · intro d hd p vis' hp
      cases hd
      exact ih p vis' hp

theorem traverseBody_head (ctx : Ctx) (ign : List Val) (dec : Int → Val → Bool)
    (descend : Option (Int → List Int → List (Int × Val) × List Int))
    (n : Int) (vis : List Int) (node : Val) (h : alookup ctx.prompt n = some node) :
    ∃ t, (traverseBody ctx ign dec descend n vis).1 = (n, node) :: t := by
  simp only [traverseBody, h]
  split
  · exact ⟨_, rfl⟩
  · exact ⟨[], rfl⟩

theorem reachOk_trans {ctx : Ctx} {ign : List Val} {a b c : Int}
    (h1 : ReachOk ctx ign a b) (h2 : ReachOk ctx ign b c) : ReachOk ctx ign a c := by
  induction h2 with
  | refl => exact h1
  | tail _ he ih => exact ReachOk.tail ih he

theorem traverseLoop_some_reach (ctx : Ctx) (ign : List Val) (n : Int)
    (d : Int → List Int → List (Int × Val) × List Int)
    (hd : ∀ p vis i, i ∈ (d p vis).2 → i ∈ vis ∨ ReachOk ctx ign p i) :
    ∀ (prods : List (Int × List Val)) (vis : List Int),
      (∀ pe ∈ prods, pe ∈ producersOf ctx n) →
      ∀ i, i ∈ (traverseLoop ign (some d) prods vis).2 →
        i ∈ vis ∨ ReachOk ctx ign n i := by
  intro prods
  induction prods with
  | nil =>
    intro vis _ i hi
    simp only [traverseLoop] at hi
    exact Or.inl hi
  | cons pe rest ih =>
    intro vis hp i hi
    obtain ⟨p, tys⟩ := pe
    simp only [traverseLoop] at hi
    split at hi
    case isTrue hguard =>
      have hedge : edgeOk ctx ign n p :=
        ⟨tys, hp (p, tys) (List.mem_cons_self _ _), hguard.2⟩
      have hreach_np : ReachOk ctx ign n p := ReachOk.tail ReachOk.refl hedge
      rcases ih _ (fun pe hpe => hp pe (List.mem_cons_of_mem _ hpe)) i hi with h1 | h1
      · rcases hd p vis i h1 with h2 | h2
        · exact Or.inl h2
        · exact Or.inr (reachOk_trans hreach_np h2)
      · exact Or.inr h1
    case isFalse =>
      exact ih _ (fun pe hpe => hp pe (List.mem_cons_of_mem _ hpe)) i hi

theorem traverseBody_reach (ctx : Ctx) (ign : List Val) (dec : Int → Val → Bool)
    (descend : Option (Int → List Int → List (Int × Val) × List Int))
    (hd : ∀ d, descend = some d → ∀ p vis i, i ∈ (d p vis).2 → i ∈ vis ∨ ReachOk ctx ign p i) :
    ∀ (n : Int) (vis : List Int) (i : Int),
      i ∈ (traverseBody ctx ign dec descend n vis).2 →
      i ∈ vis ∨ ReachOk ctx ign n i := by
  intro n vis i hi
  have hcons : i ∈ n :: vis → i ∈ vis ∨ ReachOk ctx ign n i := by
    intro h
    rcases List.mem_cons.mp h with h | h
    · exact Or.inr (h ▸ ReachOk.refl)
    · exact Or.inl h
  match descend with
  | none =>
    simp only [traverseBody] at hi
    split at hi
    · rw [traverseLoop_none_snd] at hi
      exact hcons hi
    · split at hi
      · rw [traverseLoop_none_snd] at hi
        exact hcons hi
      · exact hcons hi
  | some d =>
    have hinv := hd d rfl
    simp only [traverseBody] at hi
    split at hi
    · rcases traverseLoop_some_reach ctx ign n d hinv (producersOf ctx n) (n :: vis)
        (fun pe hpe => hpe) i hi with h | h
      · exact hcons h
      · exact Or.inr h
    · split at hi
      · rcases traverseLoop_some_reach ctx ign n d hinv (producersOf ctx n) (n :: vis)
          (fun pe hpe => hpe) i hi with h | h
        · exact hcons h
        · exact Or.inr h
      · exact hcons hi

theorem traverseInner_reach (ctx : Ctx) (ign : List Val) (dec : Int → Val → Bool) :
    ∀ (fuel : Nat) (n : Int) (vis : List Int) (i : Int),
      i ∈ (traverseInner ctx ign dec fuel n vis).2 →
      i ∈ vis ∨ ReachOk ctx ign n i := by
  intro fuel
  induction fuel with
  | zero =>
    intro n vis i hi
    exact traverseBody_reach ctx ign dec none (fun d h => nomatch h) n vis i hi
  | succ f ih =>
    intro n vis i hi
    refine traverseBody_reach ctx ign dec _ ?_ n vis i hi
    intro d hd p vis' j hj
    cases hd
    exact ih p vis' j hj

theorem alookup_mem {α : Type} :
    ∀ (l : List (Int × α)) (k : Int) (v : α), alookup l k = some v → (k, v) ∈ l := by
  intro l
  induction l with
  | nil => intro k v h; exact absurd h (by simp [alookup])
  | cons kv r ih =>
    intro k v h
    obtain ⟨k0, v0⟩ := kv
    simp only [alookup] at h
    split at h
    case isTrue heq =>
      cases h
      subst heq
      exact List.mem_cons_self _ _
    case isFalse =>
      exact List.mem_cons_of_mem _ (ih k v h)

theorem producersOf_fst_mem_cand (ctx : Ctx) (n : Int) :
    ∀ pe ∈ producersOf ctx n, pe.1 ∈ candIds ctx := by
  intro pe hpe
  unfold producersOf at hpe
  cases halk : alookup ctx.links n with
  | none => rw [halk] at hpe; exact absurd hpe (List.not_mem_nil _)
  | some inner =>
    rw [halk] at hpe
    simp only [Option.getD_some] at hpe
    have hmem : (n, inner) ∈ ctx.links := alookup_mem ctx.links n inner halk
    unfold candIds
    rw [List.mem_dedup]
    rw [List.mem_flatten]
    refine ⟨inner.map Prod.fst, ?_, ?_⟩
    · exact List.mem_map.mpr ⟨(n, inner), hmem, rfl⟩
    · exact List.mem_map.mpr ⟨pe, hpe, rfl⟩

theorem filter_not_mem_length_le (l : List Int) :
    ∀ (vis vis' : List Int), vis ⊆ vis' →
      (l.filter (fun i => i ∉ vis')).length ≤ (l.filter (fun i => i ∉ vis)).length := by
  induction l with
  | nil => intro vis vis' _; simp
  | cons x rest ih =>
    intro vis vis' hsub
    by_cases hx : x ∈ vis'
    · have hx2 : (decide (x ∉ vis')) = false := by simp [hx]
      simp only [List.filter_cons, hx2]
      by_cases hy : x ∈ vis
      · have hy2 : (decide (x ∉ vis)) = false := by simp [hy]
        simp only [hy2]
        exact ih vis vis' hsub
      · have hy2 : (decide (x ∉ vis)) = true := by simp [hy]
        simp only [hy2, List.length_cons]
        exact Nat.le_succ_of_le (ih vis vis' hsub)
    · have hy : x ∉ vis := fun hc => hx (hsub hc)
      have hx2 : (decide (x ∉ vis')) = true := by simp [hx]
      have hy2 : (decide (x ∉ vis)) = true := by simp [hy]
      simp only [List.filter_cons, hx2, hy2, List.length_cons]
      exact Nat.succ_le_succ (ih vis vis' hsub)

theorem filter_not_mem_length_lt (l : List Int) :
    ∀ (p : Int) (vis : List Int), p ∈ l → p ∉ vis →
      (l.filter (fun i => i ∉ p :: vis)).length < (l.filter (fun i => i ∉ vis)).length := by
  induction l with
  | nil => intro p vis hp _; exact absurd hp (List.not_mem_nil _)
  | cons x rest ih =>
    intro p vis hp hpv
    by_cases hxp : x = p
    · subst hxp
      have h1 : (decide (x ∉ x :: vis)) = false := by simp
      have h2 : (decide (x ∉ vis)) = true := by simp [hpv]
      simp only [List.filter_cons, h1, h2, List.length_cons]
      have hle : (rest.filter (fun i => i ∉ x :: vis)).length ≤
          (rest.filter (fun i => i ∉ vis)).length :=
        filter_not_mem_length_le rest vis (x :: vis) (List.subset_cons_self _ _)
      exact Nat.lt_succ_of_le hle
    · have hp2 : p ∈ rest := by
        rcases List.mem_cons.mp hp with h | h
        · exact absurd h.symm hxp
        · exact h
      have hsame : (decide (x ∉ p :: vis)) = (decide (x ∉ vis)) := by
        by_cases hxv : x ∈ vis
        · simp [hxv]
        · simp [hxv, List.mem_cons, hxp]
      simp only [List.filter_cons, hsame]
      by_cases hxv : (decide (x ∉ vis)) = true
      · simp only [hxv, List.length_cons]
        exact Nat.succ_lt_succ (ih p vis hp2 hpv)
      · simp only [Bool.not_eq_true] at hxv
        simp only [hxv]
        exact ih p vis hp2 hpv

theorem countNew_le_of_subset (ctx : Ctx) {vis vis' : List Int} (h : vis ⊆ vis') :
    countNew ctx vis' ≤ countNew ctx vis :=
  filter_not_mem_length_le (candIds ctx) vis vis' h

theorem countNew_eq_zero_mem (ctx : Ctx) {vis : List Int} (h : countNew ctx vis = 0) :
    ∀ p ∈ candIds ctx, p ∈ vis := by
  intro p hp
  by_contra hpv
  unfold countNew at h
  rw [List.length_eq_zero] at h
  have : p ∈ (candIds ctx).filter (fun i => i ∉ vis) :=
    List.mem_filter.mpr ⟨hp, by simp [hpv]⟩
  rw [h] at this
  exact absurd this (List.not_mem_nil _)

theorem countNew_cons_lt (ctx : Ctx) {p : Int} {vis : List Int}
    (hp : p ∈ candIds ctx) (hpv : p ∉ vis) :
    countNew ctx (p :: vis) < countNew ctx vis :=
  filter_not_mem_length_lt (candIds ctx) p vis hp hpv

theorem traverseInner_eq_body (ctx : Ctx) (ign : List Val) (dec : Int → Val → Bool)
    (fuel : Nat) (n : Int) (vis : List Int) :
    traverseInner ctx ign dec fuel n vis =
      traverseBody ctx ign dec (descendOf ctx ign dec fuel) n vis := by
  cases fuel <;> rfl

theorem traverseBody_congr (ctx : Ctx) (ign : List Val) (dec : Int → Val → Bool)
    (d1 d2 : Option (Int → List Int → List (Int × Val) × List Int))
    (n : Int) (vis : List Int)
    (h : traverseLoop ign d1 (producersOf ctx n) (n :: vis) =
         traverseLoop ign d2 (producersOf ctx n) (n :: vis)) :
    traverseBody ctx ign dec d1 n vis = traverseBody ctx ign dec d2 n vis := by
  cases halk : alookup ctx.prompt n with
  | none => simp only [traverseBody, halk, h]
  | some node =>
    cases hdec : dec n node with
    | false => simp only [traverseBody, halk, hdec]; rfl
    | true => simp only [traverseBody, halk, hdec, h]

theorem traverseLoop_stab (ctx : Ctx) (ign : List Val) (dec : Int → Val → Bool) :
    ∀ (fuel : Nat) (prods : List (Int × List Val)) (vis : List Int),
      (∀ pe ∈ prods, pe.1 ∈ candIds ctx) → countNew ctx vis ≤ fuel →
      traverseLoop ign (some (traverseInner ctx ign dec fuel)) prods vis =
        traverseLoop ign (descendOf ctx ign dec fuel) prods vis := by
  intro fuel
  induction fuel using Nat.strong_induction_on with
  | _ fuel sih =>
    intro prods
    induction prods with
    | nil => intro vis _ _; cases descendOf ctx ign dec fuel <;> rfl
    | cons pe rest ihp =>
      intro vis hcand hcount
      obtain ⟨p, tys⟩ := pe
      by_cases hguard : p ∉ vis ∧ tys.filter (fun t => t ∉ ign) ≠ []
      · have hpcand : p ∈ candIds ctx := hcand (p, tys) (List.mem_cons_self _ _)
        -- with an unvisited candidate, the depth budget cannot be zero
        cases fuel with
        | zero =>
          exact absurd (countNew_eq_zero_mem ctx (Nat.le_zero.mp hcount) p hpcand) hguard.1
        | succ g =>
          have hstep : traverseInner ctx ign dec (g + 1) p vis =
              traverseInner ctx ign dec g p vis := by
            rw [show traverseInner ctx ign dec (g + 1) p vis =
                traverseBody ctx ign dec (some (traverseInner ctx ign dec g)) p vis from rfl,
              traverseInner_eq_body ctx ign dec g p vis]
            refine traverseBody_congr ctx ign dec _ _ p vis ?_
            refine sih g (Nat.lt_succ_self g) (producersOf ctx p) (p :: vis)
              (producersOf_fst_mem_cand ctx p) ?_
            have hlt : countNew ctx (p :: vis) < countNew ctx vis :=
              countNew_cons_lt ctx hpcand hguard.1
            omega
          have hrest : traverseLoop ign (some (traverseInner ctx ign dec (g + 1))) rest
                (traverseInner ctx ign dec g p vis).2 =
              traverseLoop ign (descendOf ctx ign dec (g + 1)) rest
                (traverseInner ctx ign dec g p vis).2 := by
            refine ihp _ (fun pe hpe => hcand pe (List.mem_cons_of_mem _ hpe)) ?_
            have hsub : vis ⊆ (traverseInner ctx ign dec g p vis).2 := by
              intro a ha
              exact traverseInner_mono ctx ign dec g p vis (List.mem_cons_of_mem _ ha)
            exact le_trans (countNew_le_of_subset ctx hsub) hcount
          show traverseLoop ign (some (traverseInner ctx ign dec (g + 1)))
              ((p, tys) :: rest) vis =
            traverseLoop ign (some (traverseInner ctx ign dec g)) ((p, tys) :: rest) vis
          simp only [traverseLoop, if_pos hguard]
          rw [hstep]
          rw [show descendOf ctx ign dec (g + 1) = some (traverseInner ctx ign dec g) from rfl]
            at hrest
          rw [hrest]
      · simp only [traverseLoop, if_neg hguard]
        cases hdesc : descendOf ctx ign dec fuel with
        | none =>
          cases fuel with
          | zero =>
            -- both continuations are exhausted at depth zero
            cases hdesc
            exact ihp vis (fun pe hpe => hcand pe (List.mem_cons_of_mem _ hpe)) hcount
          | succ g => exact absurd hdesc (by simp [descendOf])
        | some d =>
          rw [← hdesc]
          exact ihp vis (fun pe hpe => hcand pe (List.mem_cons_of_mem _ hpe)) hcount

theorem traverseInner_stab_succ (ctx : Ctx) (ign : List Val) (dec : Int → Val → Bool)
    (fuel : Nat) (n : Int) (vis : List Int) (h : countNew ctx (n :: vis) ≤ fuel) :
    traverseInner ctx ign dec (fuel + 1) n vis = traverseInner ctx ign dec fuel n vis := by
  rw [show traverseInner ctx ign dec (fuel + 1) n vis =
      traverseBody ctx ign dec (some (traverseInner ctx ign dec fuel)) n vis from rfl,
    traverseInner_eq_body ctx ign dec fuel n vis]
  refine traverseBody_congr ctx ign dec _ _ n vis ?_
  exact traverseLoop_stab ctx ign dec fuel (producersOf ctx n) (n :: vis)
    (producersOf_fst_mem_cand ctx n) h

theorem traverse_stab (ctx : Ctx) (ign : List Val) (dec : Int → Val → Bool) (start : Int) :
    ∀ fuel, fuelBound ctx ≤ fuel →
      traverse ctx ign dec fuel start = traverse ctx ign dec (fuelBound ctx) start := by
  intro fuel
  induction fuel with
  | zero => intro h; rw [Nat.le_zero.mp h]
  | succ g ih =>
    intro h
    rcases Nat.lt_or_ge g (fuelBound ctx) with hlt | hge
    · have : fuelBound ctx = g + 1 := by omega
      rw [this]
    · have hcount : countNew ctx (start :: []) ≤ g := by
        have h1 : countNew ctx (start :: []) ≤ fuelBound ctx := by
          unfold countNew fuelBound
          exact List.length_filter_le _ _
        omega
      unfold traverse
      rw [traverseInner_stab_succ ctx ign dec g start [] hcount]
      exact ih hge

theorem yields_pred (ctx : Ctx) (ign : List Val) (dec : Int → Val → Bool)
    (fuel : Nat) (start : Int) (P : Val → Prop)
    (hall : ∀ e ∈ ctx.prompt, P e.2) :
    ∀ e ∈ (traverse ctx ign dec fuel start).1, P e.2 := by
  intro e he
  obtain ⟨i, nd⟩ := e
  have h := traverseInner_yield_lookup ctx ign dec fuel start [] i nd he
  exact hall (i, nd) (alookup_mem _ _ _ h)

theorem getModelLoop_char :
    ∀ (ys : List (Int × Val)) (proc : List Int),
      (∀ e ∈ ys, nodeOk e.2 = true) →
      getModelLoop ys proc =
        (match ys.find? hasCkptName with
         | some e => .ok (some (modelOfNode e), e.1 :: proc)
         | none => .ok (none, proc)) := by
  intro ys
  induction ys with
  | nil => intro proc _; rfl
  | cons e rest ih =>
    intro proc hok
    obtain ⟨i, nd⟩ := e
    have hnd := hok (i, nd) (List.mem_cons_self _ _)
    cases nd with
    | str s => exact absurd hnd (by simp [nodeOk])
    | num n => exact absurd hnd (by simp [nodeOk])
    | bool b => exact absurd hnd (by simp [nodeOk])
    | null => exact absurd hnd (by simp [nodeOk])
    | list xs => exact absurd hnd (by simp [nodeOk])
    | dict kvs =>
      cases hinp : slookup kvs "inputs" with
      | none =>
        rw [List.find?_cons_of_neg _ (by simp [hasCkptName, hinp])]
        simp only [getModelLoop, hinp]
        exact ih proc (fun e he => hok e (List.mem_cons_of_mem _ he))
      | some v =>
        cases v with
        | dict ikvs =>
          cases hck : slookup ikvs "ckpt_name" with
          | none =>
            rw [List.find?_cons_of_neg _ (by simp [hasCkptName, hinp, hck])]
            simp only [getModelLoop, hinp, hck]
            exact ih proc (fun e he => hok e (List.mem_cons_of_mem _ he))
          | some ck =>
            rw [List.find?_cons_of_pos _ (by simp [hasCkptName, hinp, hck])]
            simp only [getModelLoop, hinp, hck, modelOfNode, Option.getD_some]
        | str s => exact absurd hnd (by simp [nodeOk, hinp])
        | num n => exact absurd hnd (by simp [nodeOk, hinp])
        | bool b => exact absurd hnd (by simp [nodeOk, hinp])
        | null => exact absurd hnd (by simp [nodeOk, hinp])
        | list xs => exact absurd hnd (by simp [nodeOk, hinp])

theorem getModel_char (ctx : Ctx) (fuel : Nat) (start : Int) (proc : List Int)
    (hall : ∀ e ∈ ctx.prompt, nodeOk e.2 = true) :
    getModel ctx fuel start proc =
      (match (traverse ctx [] decContinue fuel start).1.find? hasCkptName with
       | some e => .ok (some (modelOfNode e), e.1 :: proc)
       | none => .ok (none, proc)) :=
  getModelLoop_char _ proc
    (yields_pred ctx [] decContinue fuel start (fun v => nodeOk v = true) hall)

theorem getPromptsLoop_char (keys : List String) :
    ∀ (ys : List (Int × Val)) (ps : List Prompt) (proc : List Int),
      (∀ e ∈ ys, nodeOk e.2 = true) →
      getPromptsLoop keys ys ps proc =
        .ok (ps ++ ys.flatMap (nodeContribs keys),
             ((ys.filter (fun e => ¬ nodeContribs keys e = [])).map Prod.fst).reverse ++ proc) := by
  intro ys
  induction ys with
  | nil => intro ps proc _; simp [getPromptsLoop]
  | cons e rest ih =>
    intro ps proc hok
    obtain ⟨i, nd⟩ := e
    have hnd := hok (i, nd) (List.mem_cons_self _ _)
    cases nd with
    | str s => exact absurd hnd (by simp [nodeOk])
    | num n => exact absurd hnd (by simp [nodeOk])
    | bool b => exact absurd hnd (by simp [nodeOk])
    | null => exact absurd hnd (by simp [nodeOk])
    | list xs => exact absurd hnd (by simp [nodeOk])
    | dict kvs =>
      cases hinp : slookup kvs "inputs" with
      | none =>
        have hc : nodeContribs keys (i, Val.dict kvs) = [] := by simp [nodeContribs, hinp]
        simp only [getPromptsLoop, hinp]
        rw [ih ps proc (fun e he => hok e (List.mem_cons_of_mem _ he))]
        simp [hc]
      | some v =>
        cases v with
        | dict ikvs =>
          have hc : nodeContribs keys (i, Val.dict kvs) = promptContribs keys i ikvs := by
            simp [nodeContribs, hinp]
          by_cases hfound : promptContribs keys i ikvs = []
          · simp only [getPromptsLoop, hinp, if_pos hfound]
            rw [ih ps proc (fun e he => hok e (List.mem_cons_of_mem _ he))]
            simp [hc, hfound]
          · simp only [getPromptsLoop, hinp, if_neg hfound]
            rw [ih (ps ++ promptContribs keys i ikvs) (i :: proc)
              (fun e he => hok e (List.mem_cons_of_mem _ he))]
            simp [hc, hfound, List.append_assoc]
        | str s => exact absurd hnd (by simp [nodeOk, hinp])
        | num n => exact absurd hnd (by simp [nodeOk, hinp])
        | bool b => exact absurd hnd (by simp [nodeOk, hinp])
        | null => exact absurd hnd (by simp [nodeOk, hinp])
        | list xs => exact absurd hnd (by simp [nodeOk, hinp])

theorem getPrompts_char (ctx : Ctx) (fuel : Nat) (start : Int) (keys : List String)
    (proc : List Int) (hall : ∀ e ∈ ctx.prompt, nodeOk e.2 = true) :
    getPrompts ctx fuel start keys proc =
      .ok ((traverse ctx ignoreLinkTypesPrompt (promptRecurse keys) fuel start).1.flatMap
             (nodeContribs keys),
           (((traverse ctx ignoreLinkTypesPrompt (promptRecurse keys) fuel start).1.filter
               (fun e => ¬ nodeContribs keys e = [])).map Prod.fst).reverse ++ proc) := by
  unfold getPrompts
  rw [getPromptsLoop_char keys _ [] proc
    (yields_pred ctx ignoreLinkTypesPrompt (promptRecurse keys) fuel start
      (fun v => nodeOk v = true) hall)]
  simp

theorem getModelLoop_error_type :
    ∀ (ys : List (Int × Val)) (proc : List Int) (e : PyErr),
      getModelLoop ys proc = .error e → e = .typeError := by
  intro ys
  induction ys with
  | nil => intro proc e h; exact absurd h (by simp [getModelLoop])
  | cons p rest ih =>
    intro proc e h
    obtain ⟨i, nd⟩ := p
    cases nd with
    | dict kvs =>
      simp only [getModelLoop] at h
      cases hinp : slookup kvs "inputs" with
      | none => simp only [hinp] at h; exact ih proc e h
      | some v =>
        simp only [hinp] at h
        cases v with
        | dict ikvs =>
          cases hck : slookup ikvs "ckpt_name" with
          | none => simp only [hck] at h; exact ih proc e h
          | some ck => simp only [hck] at h; exact absurd h (by simp)
        | str s => injection h with h'; exact h'.symm
        | num n => injection h with h'; exact h'.symm
        | bool b => injection h with h'; exact h'.symm
        | null => injection h with h'; exact h'.symm
        | list xs => injection h with h'; exact h'.symm
    | str s => simp only [getModelLoop] at h; injection h with h'; exact h'.symm
    | num n => simp only [getModelLoop] at h; injection h with h'; exact h'.symm
    | bool b => simp only [getModelLoop] at h; injection h with h'; exact h'.symm
    | null => simp only [getModelLoop] at h; injection h with h'; exact h'.symm
    | list xs => simp only [getModelLoop] at h; injection h with h'; exact h'.symm

theorem getPromptsLoop_error_type (keys : List String) :
    ∀ (ys : List (Int × Val)) (ps : List Prompt) (proc : List Int) (e : PyErr),
      getPromptsLoop keys ys ps proc = .error e → e = .typeError := by
  intro ys
  induction ys with
  | nil => intro ps proc e h; exact absurd h (by simp [getPromptsLoop])
  | cons p rest ih =>
    intro ps proc e h
    obtain ⟨i, nd⟩ := p
    simp only [getPromptsLoop] at h
    split at h
    · split at h
      · exact ih _ _ e h
      · split at h
        · exact ih _ _ e h
        · exact ih _ _ e h
      · injection h with h'; exact h'.symm
    · injection h with h'; exact h'.symm

theorem slookup_eraseKey_ne (kvs : List (String × Val)) (key k : String) (h : k ≠ key) :
    slookup (eraseKey kvs key) k = slookup kvs k := by
  induction kvs with
  | nil => rfl
  | cons kv rest ih =>
    obtain ⟨k0, v0⟩ := kv
    by_cases h0 : k0 = key
    · subst h0
      have h1 : (decide (k0 ≠ k0)) = false := by simp
      have h2 : k0 ≠ k := fun hc => h hc.symm
      simp only [eraseKey, List.filter_cons, h1, slookup]
      rw [if_neg h2]
      exact ih
    · have h1 : (decide (k0 ≠ key)) = true := by simp [h0]
      simp only [eraseKey, List.filter_cons, h1, slookup]
      by_cases h2 : k0 = k
      · rw [if_pos h2, if_pos h2]
      · rw [if_neg h2, if_neg h2]
        exact ih

theorem mem_eraseKey (kvs : List (String × Val)) (key : String) (k : String) (v : Val) :
    (k, v) ∈ eraseKey kvs key ↔ ((k, v) ∈ kvs ∧ k ≠ key) := by
  simp [eraseKey, List.mem_filter]

theorem isSamplerNode_inputs_dict {kvs : List (String × Val)} {ikvs : List (String × Val)}
    (hinp : slookup kvs "inputs" = some (.dict ikvs)) :
    isSamplerNode (.dict kvs) = true ↔ ∀ k ∈ samplerParams, (slookup ikvs k).isSome := by
  simp [isSamplerNode, hinp, List.all_eq_true]

theorem isSamplerNode_sname {kvs ikvs : List (String × Val)}
    (hinp : slookup kvs "inputs" = some (.dict ikvs))
    (hq : isSamplerNode (.dict kvs) = true) :
    ∃ sname, slookup ikvs "sampler_name" = some sname := by
  have h := (isSamplerNode_inputs_dict hinp).mp hq "sampler_name" (by simp [samplerParams])
  exact Option.isSome_iff_exists.mp h

theorem suppressKV_ok_cases {α : Type} (r : Except PyErr α) (dflt a : α)
    (h : suppressKV r dflt = .ok a) :
    r = .ok a ∨ (a = dflt ∧ (r = .error .keyError ∨ r = .error .valueError)) := by
  cases r with
  | ok x =>
    simp only [suppressKV] at h
    injection h with h'
    exact Or.inl (by rw [h'])
  | error e =>
    cases e with
    | keyError =>
      simp only [suppressKV] at h
      injection h with h'
      exact Or.inr ⟨h'.symm, Or.inl rfl⟩
    | valueError =>
      simp only [suppressKV] at h
      injection h with h'
      exact Or.inr ⟨h'.symm, Or.inr rfl⟩
    | typeError => exact absurd h (by simp [suppressKV])
    | attributeError => exact absurd h (by simp [suppressKV])
    | indexError => exact absurd h (by simp [suppressKV])
    | parserError m => exact absurd h (by simp [suppressKV])

theorem getModelLoop_proc_mono :
    ∀ (ys : List (Int × Val)) (proc : List Int) (r : Option Model × List Int),
      getModelLoop ys proc = .ok r → proc ⊆ r.2 := by
  intro ys
  induction ys with
  | nil =>
    intro proc r h
    simp only [getModelLoop] at h
    cases h
    exact fun a ha => ha
  | cons p rest ih =>
    intro proc r h
    obtain ⟨i, nd⟩ := p
    simp only [getModelLoop] at h
    split at h
    · split at h
      · exact ih _ _ h
      · split at h
        · exact ih _ _ h
        · cases h
          exact fun a ha => List.mem_cons_of_mem _ ha
      · exact absurd h (by simp)
    · exact absurd h (by simp)

theorem getPromptsLoop_proc_mono (keys : List String) :
    ∀ (ys : List (Int × Val)) (ps : List Prompt) (proc : List Int)
      (r : List Prompt × List Int),
      getPromptsLoop keys ys ps proc = .ok r → proc ⊆ r.2 := by
  intro ys
  induction ys with
  | nil =>
    intro ps proc r h
    simp only [getPromptsLoop] at h
    cases h
    exact fun a ha => ha
  | cons p rest ih =>
    intro ps proc r h
    obtain ⟨i, nd⟩ := p
    simp only [getPromptsLoop] at h
    split at h
    · split at h
      · exact ih _ _ _ h
      · split at h
        · exact ih _ _ _ h
        · exact fun a ha => ih _ _ _ h (List.mem_cons_of_mem _ ha)
      · exact absurd h (by simp)
    · exact absurd h (by simp)

theorem getModel_proc_mono (ctx : Ctx) (fuel : Nat) (start : Int) (proc : List Int)
    (r : Option Model × List Int) (h : getModel ctx fuel start proc = .ok r) :
    proc ⊆ r.2 :=
  getModelLoop_proc_mono _ proc r h

theorem getPrompts_proc_mono (ctx : Ctx) (fuel : Nat) (start : Int) (keys : List String)
    (proc : List Int) (r : List Prompt × List Int)
    (h : getPrompts ctx fuel start keys proc = .ok r) : proc ⊆ r.2 :=
  getPromptsLoop_proc_mono keys _ [] proc r h

theorem samplerModelStep_proc_mono (ctx : Ctx) (fuel : Nat) (rest : List (String × Val))
    (proc : List Int) (r : Option Model × List Int)
    (h : samplerModelStep ctx fuel rest proc = .ok r) : proc ⊆ r.2 := by
  unfold samplerModelStep at h
  rcases suppressKV_ok_cases _ _ _ h with h1 | ⟨h1, _⟩
  · -- the inner do-chain succeeded; peel the binds
    cases hv : pyGetItem (.dict rest) "model" with
    | error e => simp only [hv, Bind.bind, Except.bind] at h1; cases h1
    | ok v =>
      simp only [hv, Bind.bind, Except.bind] at h1
      cases hh : pyIndex0 v with
      | error e => simp only [hh] at h1; cases h1
      | ok hd =>
        simp only [hh] at h1
        cases hm : pyInt hd with
        | error e => simp only [hm] at h1; cases h1
        | ok mid =>
          simp only [hm] at h1
          exact getModel_proc_mono ctx fuel mid proc r h1
  · rw [h1]
    exact fun a ha => ha

theorem samplerPromptStep_proc_mono (ctx : Ctx) (fuel : Nat) (rest : List (String × Val))
    (key : String) (tkeys : List String) (proc : List Int) (r : List Prompt × List Int)
    (h : samplerPromptStep ctx fuel rest key tkeys proc = .ok r) : proc ⊆ r.2 := by
  unfold samplerPromptStep at h
  rcases suppressKV_ok_cases _ _ _ h with h1 | ⟨h1, _⟩
  · cases hv : pyGetItem (.dict rest) key with
    | error e => simp only [hv, Bind.bind, Except.bind] at h1; cases h1
    | ok v =>
      simp only [hv, Bind.bind, Except.bind] at h1
      cases hh : pyIndex0 v with
      | error e => simp only [hh] at h1; cases h1
      | ok hd =>
        simp only [hh] at h1
        cases hm : pyInt hd with
        | error e => simp only [hm] at h1; cases h1
        | ok pid =>
          simp only [hm] at h1
          exact getPrompts_proc_mono ctx fuel pid tkeys proc r h1
  · rw [h1]
    exact fun a ha => ha

theorem samplerChain_ok (ctx : Ctx) (fuel : Nat) (nodeId : Int) (sname : Val)
    (ikvs : List (String × Val)) (proc : List Int) (os : Option Sampler) (proc' : List Int)
    (h : samplerChain ctx fuel nodeId sname ikvs proc = .ok (os, proc')) :
    ∃ s mdl proc1 pos proc2 negs,
      samplerModelStep ctx fuel (eraseKey ikvs "sampler_name") (nodeId :: proc) =
        .ok (mdl, proc1) ∧
      samplerPromptStep ctx fuel (eraseKey ikvs "sampler_name")
        "positive" positivePromptKeys proc1 = .ok (pos, proc2) ∧
      samplerPromptStep ctx fuel (eraseKey ikvs "sampler_name")
        "negative" negativePromptKeys proc2 = .ok (negs, proc') ∧
      os = some s ∧
      s = ⟨nodeId, sname,
        (eraseKey ikvs "sampler_name").filter (fun kv => ¬ kv.2.isList),
        mdl, pos, negs⟩ := by
  unfold samplerChain at h
  cases hm : samplerModelStep ctx fuel (eraseKey ikvs "sampler_name") (nodeId :: proc) with
  | error e => simp only [hm] at h; cases h
  | ok rm =>
    obtain ⟨mdl, proc1⟩ := rm
    simp only [hm] at h
    cases hp : samplerPromptStep ctx fuel (eraseKey ikvs "sampler_name")
        "positive" positivePromptKeys proc1 with
    | error e => simp only [hp] at h; cases h
    | ok rp =>
      obtain ⟨pos, proc2⟩ := rp
      simp only [hp] at h
      cases hn : samplerPromptStep ctx fuel (eraseKey ikvs "sampler_name")
          "negative" negativePromptKeys proc2 with
      | error e => simp only [hn] at h; cases h
      | ok rn =>
        obtain ⟨negs, proc3⟩ := rn
        simp only [hn] at h
        cases h
        exact ⟨_, mdl, proc1, pos, proc2, negs, rfl, hp, hn, rfl, rfl⟩

theorem samplerChain_proc_mono (ctx : Ctx) (fuel : Nat) (nodeId : Int) (sname : Val)
    (ikvs : List (String × Val)) (proc : List Int) (os : Option Sampler) (proc' : List Int)
    (h : samplerChain ctx fuel nodeId sname ikvs proc = .ok (os, proc')) :
    nodeId :: proc ⊆ proc' := by
  obtain ⟨s, mdl, proc1, pos, proc2, negs, hm, hp, hn, _, _⟩ :=
    samplerChain_ok ctx fuel nodeId sname ikvs proc os proc' h
  have h1 := samplerModelStep_proc_mono ctx fuel _ _ _ hm
  have h2 := samplerPromptStep_proc_mono ctx fuel _ _ _ _ _ hp
  have h3 := samplerPromptStep_proc_mono ctx fuel _ _ _ _ _ hn
  exact fun a ha => h3 (h2 (h1 ha))

theorem tryGetSampler_not_sampler (ctx : Ctx) (fuel : Nat) (proc : List Int)
    (nodeId : Int) (node : Val) (h : isSamplerNode node = false) :
    tryGetSampler ctx fuel proc nodeId node = .ok (none, proc) := by
  unfold tryGetSampler
  rw [if_pos (by simp [h])]

theorem tryGetSampler_eq_chain (ctx : Ctx) (fuel : Nat) (proc : List Int) (nodeId : Int)
    (kvs ikvs : List (String × Val)) (sname : Val)
    (hq : isSamplerNode (.dict kvs) = true)
    (hinp : slookup kvs "inputs" = some (.dict ikvs))
    (hsn : slookup ikvs "sampler_name" = some sname) :
    tryGetSampler ctx fuel proc nodeId (.dict kvs) =
      samplerChain ctx fuel nodeId sname ikvs proc := by
  unfold tryGetSampler
  rw [if_neg (by simp [hq])]
  simp only [hinp, hsn]

theorem isSamplerNode_list {kvs : List (String × Val)} {xs : List Val}
    (hinp : slookup kvs "inputs" = some (.list xs))
    (hq : isSamplerNode (.dict kvs) = true) :
    xs.all hashable = true ∧ Val.str "sampler_name" ∈ xs := by
  simp only [isSamplerNode, hinp, Bool.and_eq_true] at hq
  refine ⟨hq.1, ?_⟩
  have h2 := hq.2
  rw [List.all_eq_true] at h2
  have h3 := h2 "sampler_name" (by simp [samplerParams])
  simpa using h3

theorem dictSeqErr_kind : ∀ (xs : List Val) (e : PyErr),
    dictSeqErr xs = some e → e = .typeError ∨ e = .valueError := by
  intro xs
  induction xs with
  | nil =>
    intro e h
    simp [dictSeqErr] at h
  | cons x rest ih =>
    intro e h
    cases x with
    | str t =>
      by_cases ht : t.length = 2
      · simp only [dictSeqErr, if_pos ht] at h
        exact ih e h
      · simp only [dictSeqErr, if_neg ht, Option.some.injEq] at h
        exact Or.inr h.symm
    | num n =>
      simp only [dictSeqErr, Option.some.injEq] at h
      exact Or.inl h.symm
    | bool b =>
      simp only [dictSeqErr, Option.some.injEq] at h
      exact Or.inl h.symm
    | null =>
      simp only [dictSeqErr, Option.some.injEq] at h
      exact Or.inl h.symm
    | list ys =>
      match ys with
      | [] =>
        have hr : dictSeqErr (.list [] :: rest) = some .valueError := rfl
        rw [hr, Option.some.injEq] at h
        exact Or.inr h.symm
      | [a] =>
        have hr : dictSeqErr (.list [a] :: rest) = some .valueError := rfl
        rw [hr, Option.some.injEq] at h
        exact Or.inr h.symm
      | [a, b] =>
        by_cases ha : hashable a = true
        · have hr : dictSeqErr (.list [a, b] :: rest) = dictSeqErr rest := by
            simp [dictSeqErr, ha]
          rw [hr] at h
          exact ih e h
        · have hr : dictSeqErr (.list [a, b] :: rest) = some .typeError := by
            simp [dictSeqErr, ha]
          rw [hr, Option.some.injEq] at h
          exact Or.inl h.symm
      | a :: b :: c :: ys3 =>
        have hr : dictSeqErr (.list (a :: b :: c :: ys3) :: rest) =
            some .valueError := rfl
        rw [hr, Option.some.injEq] at h
        exact Or.inr h.symm
    | dict d =>
      by_cases hd : d.length = 2
      · simp only [dictSeqErr, if_pos hd] at h
        exact ih e h
      · simp only [dictSeqErr, if_neg hd, Option.some.injEq] at h
        exact Or.inr h.symm

theorem dictSeqErr_isSome {s : String} (hlen : s.length ≠ 2) :
    ∀ (xs : List Val), xs.all hashable = true → Val.str s ∈ xs →
      (dictSeqErr xs).isSome = true := by
  intro xs
  induction xs with
  | nil =>
    intro _ hmem
    cases hmem
  | cons x rest ih =>
    intro hall hmem
    rw [List.all_cons, Bool.and_eq_true] at hall
    cases x with
    | str t =>
      by_cases ht : t.length = 2
      · simp only [dictSeqErr, if_pos ht]
        apply ih hall.2
        rcases List.mem_cons.mp hmem with heq | hm
        · injection heq with hst
          subst hst
          exact absurd ht hlen
        · exact hm
      · simp [dictSeqErr, ht]
    | num n => simp [dictSeqErr]
    | bool b => simp [dictSeqErr]
    | null => simp [dictSeqErr]
    | list ys => exact absurd hall.1 (by simp [hashable])
    | dict d => exact absurd hall.1 (by simp [hashable])

theorem tryGetSampler_list_inputs (ctx : Ctx) (fuel : Nat) (proc : List Int) (nodeId : Int)
    (kvs : List (String × Val)) (xs : List Val)
    (hq : isSamplerNode (.dict kvs) = true)
    (hinp : slookup kvs "inputs" = some (.list xs)) :
    ∃ e, dictSeqErr xs = some e ∧ (e = .typeError ∨ e = .valueError) ∧
      tryGetSampler ctx fuel proc nodeId (.dict kvs) = .error e := by
  obtain ⟨hall, hmem⟩ := isSamplerNode_list hinp hq
  have hsome := dictSeqErr_isSome (by decide) xs hall hmem
  obtain ⟨e, he⟩ := Option.isSome_iff_exists.mp hsome
  refine ⟨e, he, dictSeqErr_kind xs e he, ?_⟩
  unfold tryGetSampler
  rw [if_neg (by simp [hq])]
  simp only [hinp, he]

theorem isSamplerNode_shape {node : Val} (hq : isSamplerNode node = true) :
    ∃ kvs, node = .dict kvs ∧
      ((∃ ikvs, slookup kvs "inputs" = some (.dict ikvs)) ∨
       (∃ xs, slookup kvs "inputs" = some (.list xs))) := by
  cases node with
  | dict kvs =>
    refine ⟨kvs, rfl, ?_⟩
    cases hinp : slookup kvs "inputs" with
    | none => simp [isSamplerNode, hinp] at hq
    | some v =>
      cases v with
      | dict ikvs => exact Or.inl ⟨ikvs, rfl⟩
      | list xs => exact Or.inr ⟨xs, rfl⟩
      | str s => simp [isSamplerNode, hinp] at hq
      | num n => simp [isSamplerNode, hinp] at hq
      | bool b => simp [isSamplerNode, hinp] at hq
      | null => simp [isSamplerNode, hinp] at hq
  | str s => simp [isSamplerNode] at hq
  | num n => simp [isSamplerNode] at hq
  | bool b => simp [isSamplerNode] at hq
  | null => simp [isSamplerNode] at hq
  | list xs => simp [isSamplerNode] at hq

theorem tryGetSampler_proc_mono (ctx : Ctx) (fuel : Nat) (proc : List Int) (nodeId : Int)
    (node : Val) (r : Option Sampler × List Int)
    (h : tryGetSampler ctx fuel proc nodeId node = .ok r) : proc ⊆ r.2 := by
  cases hq : isSamplerNode node with
  | false =>
    rw [tryGetSampler_not_sampler ctx fuel proc nodeId node hq] at h
    cases h
    exact fun a ha => ha
  | true =>
    obtain ⟨kvs, hnode, hshape⟩ := isSamplerNode_shape hq
    subst hnode
    rcases hshape with ⟨ikvs, hinp⟩ | ⟨xs, hinp⟩
    · obtain ⟨sname, hsn⟩ := isSamplerNode_sname hinp hq
      rw [tryGetSampler_eq_chain ctx fuel proc nodeId kvs ikvs sname hq hinp hsn] at h
      obtain ⟨os, proc'⟩ := r
      have := samplerChain_proc_mono ctx fuel nodeId sname ikvs proc os proc' h
      exact fun a ha => this (List.mem_cons_of_mem _ ha)
    · obtain ⟨e, _, _, hrw⟩ := tryGetSampler_list_inputs ctx fuel proc nodeId kvs xs hq hinp
      rw [hrw] at h
      cases h

theorem tryGetSampler_qual_some (ctx : Ctx) (fuel : Nat) (proc : List Int) (nodeId : Int)
    (node : Val) (r : Option Sampler × List Int)
    (hq : isSamplerNode node = true)
    (h : tryGetSampler ctx fuel proc nodeId node = .ok r) :
    nodeId ∈ r.2 ∧ ∃ s, r.1 = some s ∧ s.sampler_id = nodeId := by
  obtain ⟨kvs, hnode, hshape⟩ := isSamplerNode_shape hq
  subst hnode
  rcases hshape with ⟨ikvs, hinp⟩ | ⟨xs, hinp⟩
  · obtain ⟨sname, hsn⟩ := isSamplerNode_sname hinp hq
    rw [tryGetSampler_eq_chain ctx fuel proc nodeId kvs ikvs sname hq hinp hsn] at h
    obtain ⟨os, proc'⟩ := r
    obtain ⟨s, mdl, proc1, pos, proc2, negs, _, _, _, hos, hs⟩ :=
      samplerChain_ok ctx fuel nodeId sname ikvs proc os proc' h
    have hmem := samplerChain_proc_mono ctx fuel nodeId sname ikvs proc os proc' h
    exact ⟨hmem (List.mem_cons_self _ _), s, hos, by rw [hs]⟩
  · obtain ⟨e2, _, _, hrw⟩ := tryGetSampler_list_inputs ctx fuel proc nodeId kvs xs hq hinp
    rw [hrw] at h
    cases h

theorem pass1_proc_mono (ctx : Ctx) (fuel : Nat) :
    ∀ (table : List (Int × Val)) (proc : List Int) (r : List Sampler × List Int),
      pass1 ctx fuel table proc = .ok r → proc ⊆ r.2 := by
  intro table
  induction table with
  | nil =>
    intro proc r h
    simp only [pass1] at h
    cases h
    exact fun a ha => ha
  | cons e rest ih =>
    intro proc r h
    obtain ⟨i, nd⟩ := e
    simp only [pass1, Bind.bind, Except.bind] at h
    cases h1 : tryGetSampler ctx fuel proc i nd with
    | error e => simp only [h1] at h; cases h
    | ok r1 =>
      simp only [h1] at h
      cases h2 : pass1 ctx fuel rest r1.2 with
      | error e => simp only [h2] at h; cases h
      | ok r2 =>
        simp only [h2] at h
        cases h
        exact fun a ha =>
          ih r1.2 r2 h2 (tryGetSampler_proc_mono ctx fuel proc i nd r1 h1 ha)

theorem pass2Node_key (nodeId : Int) (node : Val)
    (ent : (Val × Int) × List (String × Val))
    (h : pass2Node nodeId node = .ok (some ent)) : ent.1.2 = nodeId := by
  unfold pass2Node at h
  split at h
  · split at h
    · cases h
    · split at h
      · cases h
      · split at h
        · cases h
        · cases h
          rfl
    · cases h
  · cases h

theorem pass1_ids (ctx : Ctx) (fuel : Nat) :
    ∀ (table : List (Int × Val)) (proc : List Int) (ss : List Sampler) (proc' : List Int),
      pass1 ctx fuel table proc = .ok (ss, proc') →
      ss.map (fun s => s.sampler_id) =
        (table.filter (fun e => isSamplerNode e.2)).map Prod.fst := by
  intro table
  induction table with
  | nil =>
    intro proc ss proc' h
    simp only [pass1] at h
    cases h
    rfl
  | cons e rest ih =>
    intro proc ss proc' h
    obtain ⟨i, nd⟩ := e
    simp only [pass1, Bind.bind, Except.bind] at h
    cases h1 : tryGetSampler ctx fuel proc i nd with
    | error e => simp only [h1] at h; cases h
    | ok r1 =>
      simp only [h1] at h
      cases h2 : pass1 ctx fuel rest r1.2 with
      | error e => simp only [h2] at h; cases h
      | ok r2 =>
        simp only [h2] at h
        obtain ⟨ss2, proc2⟩ := r2
        cases h
        cases hq : isSamplerNode nd with
        | true =>
          obtain ⟨_, s, hos, hid⟩ := tryGetSampler_qual_some ctx fuel proc i nd r1 hq h1
          rw [hos]
          simp only [List.map_append, List.map_cons, List.map_nil, List.filter_cons]
          rw [ih r1.2 ss2 proc2 h2]
          simp [hq, hid]
        | false =>
          rw [tryGetSampler_not_sampler ctx fuel proc i nd hq] at h1
          have hr1 : r1 = (none, proc) := by
            injection h1 with h'
            exact h'.symm
          rw [hr1]
          simp only [List.nil_append, List.filter_cons]
          rw [ih r1.2 ss2 proc2 h2]
          simp [hq]

theorem pass1_mem_processed (ctx : Ctx) (fuel : Nat) :
    ∀ (table : List (Int × Val)) (proc : List Int) (ss : List Sampler) (proc' : List Int)
      (i : Int) (nd : Val),
      pass1 ctx fuel table proc = .ok (ss, proc') →
      (i, nd) ∈ table → isSamplerNode nd = true → i ∈ proc' := by
  intro table
  induction table with
  | nil => intro proc ss proc' i nd _ hmem _; exact absurd hmem (List.not_mem_nil _)
  | cons e rest ih =>
    intro proc ss proc' i nd h hmem hq
    obtain ⟨j, ndj⟩ := e
    simp only [pass1, Bind.bind, Except.bind] at h
    cases h1 : tryGetSampler ctx fuel proc j ndj with
    | error e => simp only [h1] at h; cases h
    | ok r1 =>
      simp only [h1] at h
      cases h2 : pass1 ctx fuel rest r1.2 with
      | error e => simp only [h2] at h; cases h
      | ok r2 =>
        simp only [h2] at h
        obtain ⟨ss2, proc2⟩ := r2
        cases h
        rcases List.mem_cons.mp hmem with hhd | htl
        · have hj : j = i := congrArg Prod.fst hhd.symm
          have hnd : ndj = nd := congrArg Prod.snd hhd.symm
          subst hj
          subst hnd
          obtain ⟨hmemq, _⟩ := tryGetSampler_qual_some ctx fuel proc j ndj r1 hq h1
          exact pass1_proc_mono ctx fuel rest r1.2 (ss2, proc2) h2 hmemq
        · exact ih r1.2 ss2 proc2 i nd h2 htl hq

theorem pass2_entries :
    ∀ (table : List (Int × Val)) (proc : List Int)
      (md : List ((Val × Int) × List (String × Val))),
      pass2 table proc = .ok md →
      ∀ ent ∈ md, ent.1.2 ∉ proc ∧
        ∃ nd, (ent.1.2, nd) ∈ table ∧ pass2Node ent.1.2 nd = .ok (some ent) := by
  intro table
  induction table with
  | nil =>
    intro proc md h ent hent
    simp only [pass2] at h
    cases h
    exact absurd hent (List.not_mem_nil _)
  | cons e rest ih =>
    intro proc md h ent hent
    obtain ⟨j, ndj⟩ := e
    simp only [pass2] at h
    split at h
    · obtain ⟨g1, nd2, g2, g3⟩ := ih proc md h ent hent
      exact ⟨g1, nd2, List.mem_cons_of_mem _ g2, g3⟩
    · rename_i hj
      simp only [Bind.bind, Except.bind] at h
      cases h1 : pass2Node j ndj with
      | error e => simp only [h1] at h; cases h
      | ok e1 =>
        simp only [h1] at h
        cases h2 : pass2 rest proc with
        | error e => simp only [h2] at h; cases h
        | ok m2 =>
          simp only [h2] at h
          cases h
          rcases List.mem_append.mp hent with hh | hh
          · cases e1 with
            | none => exact absurd hh (List.not_mem_nil _)
            | some ent1 =>
              rcases List.mem_singleton.mp hh with rfl
              have hkey := pass2Node_key j ndj ent h1
              rw [hkey]
              exact ⟨hj, ndj, List.mem_cons_self _ _, h1⟩
          · obtain ⟨g1, nd2, g2, g3⟩ := ih proc m2 h2 ent hh
            exact ⟨g1, nd2, List.mem_cons_of_mem _ g2, g3⟩

theorem extract_ok_parts (p w : Val) (fuel : Nat) (ctx : Ctx)
    (ss : List Sampler) (md : List ((Val × Int) × List (String × Val)))
    (hinit : initContext p w = .ok ctx)
    (h : extract p w fuel = .ok (ss, md)) :
    ∃ proc', pass1 ctx fuel ctx.prompt [] = .ok (ss, proc') ∧
      pass2 ctx.prompt proc' = .ok md := by
  unfold extract at h
  simp only [hinit, Bind.bind, Except.bind] at h
  cases h1 : pass1 ctx fuel ctx.prompt [] with
  | error e => simp only [h1] at h; cases h
  | ok r1 =>
    obtain ⟨ss1, proc1⟩ := r1
    simp only [h1] at h
    cases h2 : pass2 ctx.prompt proc1 with
    | error e => simp only [h2] at h; cases h
    | ok m2 =>
      simp only [h2] at h
      cases h
      exact ⟨proc1, rfl, h2⟩

theorem upsert_keys {α : Type} :
    ∀ (l : List (Int × α)) (i : Int) (v : α),
      (upsert l i v).map Prod.fst =
        (if i ∈ l.map Prod.fst then l.map Prod.fst else l.map Prod.fst ++ [i]) := by
  intro l
  induction l with
  | nil => intro i v; simp [upsert]
  | cons kv rest ih =>
    intro i v
    obtain ⟨k, w⟩ := kv
    simp only [upsert]
    by_cases hk : k = i
    · subst hk
      simp
    · rw [if_neg hk]
      simp only [List.map_cons, List.mem_cons]
      rw [ih i v]
      by_cases hmem : i ∈ rest.map Prod.fst
      · rw [if_pos hmem, if_pos (Or.inr hmem)]
      · rw [if_neg hmem, if_neg (by rintro (h | h); exact hk h.symm; exact hmem h)]
        simp

theorem upsert_keys_nodup {α : Type} (l : List (Int × α)) (i : Int) (v : α)
    (h : (l.map Prod.fst).Nodup) : ((upsert l i v).map Prod.fst).Nodup := by
  rw [upsert_keys]
  by_cases hmem : i ∈ l.map Prod.fst
  · rw [if_pos hmem]; exact h
  · rw [if_neg hmem]
    refine List.Nodup.append h (List.nodup_singleton i) ?_
    intro a ha hb
    rcases List.mem_singleton.mp hb with rfl
    exact hmem ha

theorem coerceKeys_keys_nodup :
    ∀ (kvs : List (String × Val)) (acc table : List (Int × Val)),
      (acc.map Prod.fst).Nodup → coerceKeys kvs acc = some table →
      (table.map Prod.fst).Nodup := by
  intro kvs
  induction kvs with
  | nil =>
    intro acc table hacc h
    simp only [coerceKeys] at h
    cases h
    exact hacc
  | cons kv rest ih =>
    intro acc table hacc h
    obtain ⟨k, v⟩ := kv
    simp only [coerceKeys] at h
    cases hk : pyStrToInt k with
    | none => rw [hk] at h; cases h
    | some i =>
      rw [hk] at h
      exact ih (upsert acc i v) table (upsert_keys_nodup acc i v hacc) h

theorem initContext_keys_nodup (p w : Val) (ctx : Ctx)
    (h : initContext p w = .ok ctx) : (ctx.prompt.map Prod.fst).Nodup := by
  unfold initContext at h
  cases p with
  | dict kvs =>
    cases hco : coerceKeys kvs [] with
    | none => simp only [hco] at h; cases h
    | some table =>
      simp only [hco] at h
      cases hbl : buildLinks w with
      | ok links =>
        simp only [hbl] at h
        cases h
        exact coerceKeys_keys_nodup kvs [] table List.nodup_nil hco
      | error e => simp only [hbl] at h; cases h
  | str sv => cases h
  | num nv => cases h
  | bool bv => cases h
  | null => cases h
  | list xs => cases h

theorem key_filter_once :
    ∀ (table : List (Int × Val)) (q : Int × Val → Bool) (i : Int) (nd : Val),
      (table.map Prod.fst).Nodup → (i, nd) ∈ table → q (i, nd) = true →
      (((table.filter q).map Prod.fst).filter (fun j => j = i)).length = 1 := by
  intro table
  induction table with
  | nil => intro q i nd _ hmem _; exact absurd hmem (List.not_mem_nil _)
  | cons e rest ih =>
    intro q i nd hnodup hmem hq
    obtain ⟨k, v⟩ := e
    simp only [List.map_cons, List.nodup_cons] at hnodup
    obtain ⟨hknotin, hrest⟩ := hnodup
    rcases List.mem_cons.mp hmem with hhd | htl
    · injection hhd with hk hv
      subst hk
      subst hv
      have h1 : ((i, nd) :: rest).filter q = (i, nd) :: rest.filter q := by
        simp [List.filter_cons, hq]
      rw [h1]
      simp only [List.map_cons]
      have h2 : ((i :: (rest.filter q).map Prod.fst).filter (fun j => j = i)) =
          i :: (((rest.filter q).map Prod.fst).filter (fun j => j = i)) := by
        simp [List.filter_cons]
      rw [h2, List.length_cons]
      have h3 : (((rest.filter q).map Prod.fst).filter (fun j => j = i)) = [] := by
        refine List.filter_eq_nil_iff.mpr ?_
        intro j hj
        simp only [decide_eq_true_eq]
        intro hji
        subst hji
        refine hknotin ?_
        obtain ⟨⟨j1, v1⟩, hmem1, hj1⟩ := List.mem_map.mp hj
        exact List.mem_map.mpr ⟨(j1, v1), (List.mem_filter.mp hmem1).1, hj1⟩
      rw [h3]
      rfl
    · have hki : k ≠ i := by
        intro hc
        refine hknotin ?_
        rw [hc]
        exact List.mem_map.mpr ⟨(i, nd), htl, rfl⟩
      have hres := ih q i nd hrest htl hq
      by_cases hqk : q (k, v) = true
      · have h1 : ((k, v) :: rest).filter q = (k, v) :: rest.filter q := by
          simp [List.filter_cons, hqk]
        rw [h1]
        simp only [List.map_cons]
        have h2 : ((k :: (rest.filter q).map Prod.fst).filter (fun j => j = i)) =
            ((rest.filter q).map Prod.fst).filter (fun j => j = i) := by
          simp [List.filter_cons, hki]
        rw [h2]
        exact hres
      · have h1 : ((k, v) :: rest).filter q = rest.filter q := by
          simp [List.filter_cons, hqk]
        rw [h1]
        exact hres

theorem safeNode_inputs_dict {kvs : List (String × Val)} (h : safeNode (.dict kvs) = true)
    {v : Val} (hinp : slookup kvs "inputs" = some v) : ∃ ikvs, v = .dict ikvs := by
  cases v with
  | dict ikvs => exact ⟨ikvs, rfl⟩
  | str s => simp [safeNode, hinp] at h
  | num n => simp [safeNode, hinp] at h
  | bool b => simp [safeNode, hinp] at h
  | null => simp [safeNode, hinp] at h
  | list xs => simp [safeNode, hinp] at h

/-- C1: a backward traversal started via `ImageContext._traverse`
terminates on every graph, cycles included — at any recursion depth of
at least `fuelBound ctx` the result no longer depends on the depth, so
the traversal completes — and yields each node id at most once.  The
visited set is created fresh inside each call: by definition,
`traverse ctx ign dec fuel start = traverseInner ctx ign dec fuel start []`,
so no state is shared across calls. -/
theorem c1_traverse_terminates_visits_once (ctx : Ctx) (ign : List Val)
    (dec : Int → Val → Bool) (start : Int) (fuel : Nat) :
    ((traverse ctx ign dec fuel start).1.map Prod.fst).Nodup ∧
    (fuelBound ctx ≤ fuel →
      traverse ctx ign dec fuel start = traverse ctx ign dec (fuelBound ctx) start) :=
  ⟨(traverseInner_nodup ctx ign dec fuel start [] (List.not_mem_nil _)).1,
   traverse_stab ctx ign dec start fuel⟩

/-- Witness for C1 on a two-node cyclic graph. -/
theorem c1_witness :
    ((traverse exCycleCtx [] decContinue 5 1).1.map Prod.fst).Nodup ∧
    traverse exCycleCtx [] decContinue 5 1 =
      traverse exCycleCtx [] decContinue (fuelBound exCycleCtx) 1 :=
  ⟨(c1_traverse_terminates_visits_once exCycleCtx [] decContinue 1 5).1,
   (c1_traverse_terminates_visits_once exCycleCtx [] decContinue 1 5).2 (by decide)⟩

/-- C5: during a prompt-resolution walk (link type `CLIP` ignored) the
traversal never marks visited, and never yields, a node that is not
reachable from the start id along edges having at least one non-ignored
link type. -/
theorem c5_clip_ignored_unreachable (ctx : Ctx) (dec : Int → Val → Bool) (fuel : Nat)
    (start x : Int)
    (h : ¬ ReachOk ctx ignoreLinkTypesPrompt start x) :
    x ∉ (traverse ctx ignoreLinkTypesPrompt dec fuel start).2 ∧
    ∀ nd : Val, (x, nd) ∉ (traverse ctx ignoreLinkTypesPrompt dec fuel start).1 := by
  have hvis : x ∉ (traverse ctx ignoreLinkTypesPrompt dec fuel start).2 := by
    intro hx
    rcases traverseInner_reach ctx ignoreLinkTypesPrompt dec fuel start [] x hx with h1 | h1
    · exact absurd h1 (List.not_mem_nil _)
    · exact h h1
  refine ⟨hvis, fun nd hnd => ?_⟩
  have hmm : x ∈ (traverse ctx ignoreLinkTypesPrompt dec fuel start).1.map Prod.fst :=
    List.mem_map.mpr ⟨(x, nd), hnd, rfl⟩
  have h2 := (traverseInner_nodup ctx ignoreLinkTypesPrompt dec fuel start []
    (List.not_mem_nil _)).2 x hmm
  exact hvis h2.2

/-- Witness for C5: node 2 is connected to node 1 only by a `CLIP` edge
and is never visited. -/
theorem c5_witness :
    (¬ ReachOk clipCtx ignoreLinkTypesPrompt 1 2) ∧
    2 ∉ (traverse clipCtx ignoreLinkTypesPrompt decContinue 5 1).2 := by
  have key : ∀ y, ReachOk clipCtx ignoreLinkTypesPrompt 1 y → y = 1 := by
    intro y hy
    induction hy with
    | refl => rfl
    | tail _ he ih =>
      subst ih
      obtain ⟨tys, hmem, hne⟩ := he
      have hp : producersOf clipCtx 1 = [(2, [Val.str "CLIP"])] := rfl
      rw [hp] at hmem
      rcases List.mem_singleton.mp hmem with heq
      injection heq with h1 h2
      rw [h2] at hne
      exact absurd rfl hne
  have hnr : ¬ ReachOk clipCtx ignoreLinkTypesPrompt 1 2 := by
    intro h
    have := key 2 h
    exact absurd this (by decide)
  exact ⟨hnr,
    (c5_clip_ignored_unreachable clipCtx decContinue 5 1 2 hnr).1⟩

/-- C6 counterexample: with node table `{2: ...}` and a link `1 ← 2`,
a traversal started at the missing id `1` yields only node 2 — the
caller never receives the start id, contrary to the claim that the
start id is delivered even without a node-table entry. -/
theorem c6_counterexample :
    (traverse exMissingCtx [] decContinue 5 1).1.map Prod.fst = [2] ∧
    ¬ (1 ∈ (traverse exMissingCtx [] decContinue 5 1).1.map Prod.fst) := by
  constructor
  · rfl
  · intro h
    rw [show (traverse exMissingCtx [] decContinue 5 1).1.map Prod.fst = [2] from rfl] at h
    rcases List.mem_singleton.mp h with h1
    exact absurd h1 (by decide)

/-- C6 amended: the traversal enters `start_id` first and marks it
visited, but the caller receives a `(node_id, node)` pair only for ids
present in the node table: a present start node is yielded first with
its content, while a missing start node is silently skipped (its
producers are still traversed). -/
theorem c6_amended_start_yield (ctx : Ctx) (ign : List Val) (dec : Int → Val → Bool)
    (fuel : Nat) (start : Int) :
    start ∈ (traverse ctx ign dec fuel start).2 ∧
    (∀ (i : Int) (nd : Val), (i, nd) ∈ (traverse ctx ign dec fuel start).1 →
      alookup ctx.prompt i = some nd) ∧
    (∀ node : Val, alookup ctx.prompt start = some node →
      ∃ t, (traverse ctx ign dec fuel start).1 = (start, node) :: t) := by
  refine ⟨?_, ?_, ?_⟩
  · exact traverseInner_mono ctx ign dec fuel start [] (List.mem_cons_self _ _)
  · intro i nd h
    exact traverseInner_yield_lookup ctx ign dec fuel start [] i nd h
  · intro node h
    cases fuel with
    | zero => exact traverseBody_head ctx ign dec none start [] node h
    | succ f =>
      exact traverseBody_head ctx ign dec
        (some (traverseInner ctx ign dec f)) start [] node h

/-- Witness for the amended C6 on the walkthrough scenario. -/
theorem c6_amended_witness :
    1 ∈ (traverse scenCtx [] decContinue 10 1).2 ∧
    ∃ t, (traverse scenCtx [] decContinue 10 1).1 = (1, scenNode1) :: t :=
  ⟨(c6_amended_start_yield scenCtx [] decContinue 10 1).1,
   (c6_amended_start_yield scenCtx [] decContinue 10 1).2.2 scenNode1 rfl⟩

/-- C10: in `LSBExtractor`, once the pixel cursor is out of range,
`_extract_next_bit` leaves the whole state (in particular the bit
counter) unchanged; hence with the column index at or past the image
width and fewer than 8 bits buffered, the `while self.bits < 8` loop of
`get_one_byte` never exits (no step budget suffices), and
`get_next_n_bytes` (and through it `read_32bit_integer`) inherits the
divergence for any positive byte count. -/
theorem c10_lsb_nontermination (st : LSB) :
    ((st.height ≤ st.row ∨ st.width ≤ st.col) → extractNextBit st = st) ∧
    (st.width ≤ st.col → st.bits < 8 → ∀ steps, getOneByte steps st = none) ∧
    (st.width ≤ st.col → st.bits < 8 → ∀ steps n, 1 ≤ n →
      getNextNBytes steps n st = none) := by
  have hstall : (st.height ≤ st.row ∨ st.width ≤ st.col) → extractNextBit st = st := by
    intro h
    unfold extractNextBit
    rw [if_neg]
    rintro ⟨h1, h2⟩
    rcases h with h3 | h3
    · exact absurd h1 (Nat.not_lt.mpr h3)
    · exact absurd h2 (Nat.not_lt.mpr h3)
  have hbyte : st.width ≤ st.col → st.bits < 8 → ∀ steps, getOneByte steps st = none := by
    intro hcol hbits steps
    induction steps with
    | zero => simp only [getOneByte, if_pos hbits]
    | succ k ih =>
      simp only [getOneByte, if_pos hbits]
      rw [hstall (Or.inr hcol)]
      exact ih
  refine ⟨hstall, hbyte, ?_⟩
  intro hcol hbits steps n hn
  cases n with
  | zero => exact absurd hn (by decide)
  | succ m =>
    simp only [getNextNBytes]
    rw [hbyte hcol hbits steps]

/-- Witness for C10 at a concrete exhausted extractor state. -/
theorem c10_witness :
    extractNextBit lsbStuck = lsbStuck ∧
    getOneByte 10 lsbStuck = none ∧
    getNextNBytes 10 4 lsbStuck = none :=
  ⟨(c10_lsb_nontermination lsbStuck).1 (Or.inr (by decide)),
   (c10_lsb_nontermination lsbStuck).2.1 (by decide) (by decide) 10,
   (c10_lsb_nontermination lsbStuck).2.2 (by decide) (by decide) 10 4 (by decide)⟩

/-- C3: for a well-formed node table (node objects with mapping inputs),
`_get_model` walks backward from the given producer id with no ignored
link types; the first node in walker-visit order whose inputs contain
`ckpt_name` becomes the Model (name = the `ckpt_name` value, with
`config_name` attached when present) and its id is pushed on the
processed set; when no visited node has `ckpt_name` the model is absent
and no error is raised.  Moreover, for a sampler node whose `model`
input is a link reference `[pid, slot]`, the Sampler's model field is
exactly that walk's result started at `pid`. -/
theorem c3_model_resolution (ctx : Ctx) (fuel : Nat)
    (hall : ∀ e ∈ ctx.prompt, nodeOk e.2 = true) :
    (∀ (start : Int) (proc : List Int),
      getModel ctx fuel start proc =
        (match (traverse ctx [] decContinue fuel start).1.find? hasCkptName with
         | some e => .ok (some (modelOfNode e), e.1 :: proc)
         | none => .ok (none, proc))) ∧
    (∀ (proc proc' : List Int) (nodeId : Int) (kvs ikvs : List (String × Val))
       (pid : Int) (l : List Val) (s : Sampler),
      slookup kvs "inputs" = some (.dict ikvs) →
      slookup ikvs "model" = some (.list (.num pid :: l)) →
      tryGetSampler ctx fuel proc nodeId (.dict kvs) = .ok (some s, proc') →
      ∃ proc1, getModel ctx fuel pid (nodeId :: proc) = .ok (s.model, proc1)) := by
  constructor
  · intro start proc
    exact getModel_char ctx fuel start proc hall
  · intro proc proc' nodeId kvs ikvs pid l s hinp hmdl htry
    cases hq : isSamplerNode (.dict kvs) with
    | false =>
      rw [tryGetSampler_not_sampler _ _ _ _ _ hq] at htry
      injection htry with h'
      have : (none : Option Sampler) = some s := congrArg Prod.fst h'
      cases this
    | true =>
      obtain ⟨sname, hsn⟩ := isSamplerNode_sname hinp hq
      rw [tryGetSampler_eq_chain ctx fuel proc nodeId kvs ikvs sname hq hinp hsn] at htry
      obtain ⟨s2, mdl, proc1, pos, proc2, negs, hm, _, _, hos, hs⟩ :=
        samplerChain_ok ctx fuel nodeId sname ikvs proc (some s) proc' htry
      injection hos with hss
      have hrest : slookup (eraseKey ikvs "sampler_name") "model" =
          some (.list (.num pid :: l)) := by
        rw [slookup_eraseKey_ne ikvs "sampler_name" "model" (by decide)]
        exact hmdl
      have hget : pyGetItem (.dict (eraseKey ikvs "sampler_name")) "model" =
          .ok (.list (.num pid :: l)) := by
        simp [pyGetItem, hrest]
      unfold samplerModelStep at hm
      simp only [hget, Bind.bind, Except.bind, pyIndex0, pyInt] at hm
      rcases suppressKV_ok_cases _ _ _ hm with hg1 | ⟨_, hg2 | hg2⟩
      · refine ⟨proc1, ?_⟩
        rw [hg1]
        rw [← hss] at hs
        rw [hs]
      · have := getModelLoop_error_type _ _ _ hg2
        cases this
      · have := getModelLoop_error_type _ _ _ hg2
        cases this

/-- Witness for C3 on the walkthrough scenario: the model walk from the
checkpoint node resolves to `modelA`. -/
theorem c3_witness :
    getModel scenCtx 10 2 [1] =
      (match (traverse scenCtx [] decContinue 10 2).1.find? hasCkptName with
       | some e => .ok (some (modelOfNode e), e.1 :: [1])
       | none => .ok (none, [1])) ∧
    getModel scenCtx 10 2 [1] = .ok (some ⟨2, .str "modelA", none⟩, [2, 1]) :=
  ⟨(c3_model_resolution scenCtx 10 (by decide)).1 2 [1], rfl⟩

/-- C4: for a well-formed node table, `_get_prompts` returns exactly the
prompt contributions of the visited nodes in visitation order — each
visited node contributing one Prompt per matching text key holding a
literal string, with the visiting node's id and the stripped text — and
pushes on the processed set exactly the ids of the nodes that
contributed at least one prompt; the walk's continue/stop decision for
every visited node is stop-this-branch (`false`, no descent into its
producers, by definition of `traverseBody`) exactly when it contributed
at least one prompt. -/
theorem c4_prompt_resolution (ctx : Ctx) (fuel : Nat) (start : Int)
    (keys : List String) (proc : List Int)
    (hall : ∀ e ∈ ctx.prompt, nodeOk e.2 = true) :
    getPrompts ctx fuel start keys proc =
      .ok ((traverse ctx ignoreLinkTypesPrompt (promptRecurse keys) fuel start).1.flatMap
            (nodeContribs keys),
          (((traverse ctx ignoreLinkTypesPrompt (promptRecurse keys) fuel start).1.filter
              (fun e => ¬ nodeContribs keys e = [])).map Prod.fst).reverse ++ proc) ∧
    ∀ e ∈ (traverse ctx ignoreLinkTypesPrompt (promptRecurse keys) fuel start).1,
      (promptRecurse keys e.1 e.2 = false ↔ nodeContribs keys e ≠ []) := by
  constructor
  · exact getPrompts_char ctx fuel start keys proc hall
  · intro e he
    have hok := yields_pred ctx ignoreLinkTypesPrompt (promptRecurse keys) fuel start
      (fun v => nodeOk v = true) hall e he
    obtain ⟨i, nd⟩ := e
    cases nd with
    | dict kvs =>
      cases hinp : slookup kvs "inputs" with
      | none => simp [promptRecurse, nodeContribs, hinp]
      | some v =>
        cases v with
        | dict ikvs => simp [promptRecurse, nodeContribs, hinp]
        | str sx => exact absurd hok (by simp [nodeOk, hinp])
        | num nx => exact absurd hok (by simp [nodeOk, hinp])
        | bool bx => exact absurd hok (by simp [nodeOk, hinp])
        | null => exact absurd hok (by simp [nodeOk, hinp])
        | list xs => exact absurd hok (by simp [nodeOk, hinp])
    | str sx => exact absurd hok (by simp [nodeOk])
    | num nx => exact absurd hok (by simp [nodeOk])
    | bool bx => exact absurd hok (by simp [nodeOk])
    | null => exact absurd hok (by simp [nodeOk])
    | list xs => exact absurd hok (by simp [nodeOk])

/-- Witness for C4 on the walkthrough scenario, at the positive-prompt
walk from node 3. -/
theorem c4_witness :
    getPrompts scenCtx 10 3 positivePromptKeys [] =
      .ok ((traverse scenCtx ignoreLinkTypesPrompt
              (promptRecurse positivePromptKeys) 10 3).1.flatMap
            (nodeContribs positivePromptKeys),
          (((traverse scenCtx ignoreLinkTypesPrompt
                (promptRecurse positivePromptKeys) 10 3).1.filter
              (fun e => ¬ nodeContribs positivePromptKeys e = [])).map Prod.fst).reverse
            ++ []) ∧
    getPrompts scenCtx 10 3 positivePromptKeys [] = .ok ([⟨3, "cat"⟩], [3]) :=
  ⟨(c4_prompt_resolution scenCtx 10 3 positivePromptKeys [] (by decide)).1, rfl⟩

theorem length_filter_map {α β : Type} (f : α → β) (p : β → Bool) :
    ∀ l : List α, ((l.map f).filter p).length = (l.filter (fun x => p (f x))).length := by
  intro l
  induction l with
  | nil => rfl
  | cons x rest ih =>
    simp only [List.map_cons, List.filter_cons]
    cases hp : p (f x) with
    | true => simp [ih]
    | false => simp [ih]

/-- C2 counterexample: a node whose `inputs` is a list containing the
three sampler key strings passes the `issubset` test and then crashes in
`dict(node["inputs"])` with an uncaught `ValueError` — extraction
aborts instead of disqualifying the non-mapping inputs silently. -/
theorem c2_counterexample :
    extract c2cxPrompt emptyWorkflow 10 = .error .valueError := rfl

/-- C2 amended: a node yields a Sampler iff its inputs' key set is a
superset of `{sampler_name, steps, cfg}`; a missing `inputs` key, a
non-mapping non-list `inputs`, or a list `inputs` that fails the guarded
`issubset` test — in particular a list with an unhashable element, whose
`TypeError` the guard catches — disqualifies silently, but a qualifying
list-valued `inputs` (all elements hashable, containing the three key
strings) makes `dict(node["inputs"])` raise an unhandled `TypeError` or
`ValueError`, decided by the first element that is not a valid pair,
instead of being disqualified silently.  On a successful extraction
every qualifying node yields exactly one Sampler and its id never
appears as the node-id component of a Metadata key. -/
theorem c2_amended_qualification :
    (∀ (ctx : Ctx) (fuel : Nat) (proc : List Int) (i : Int) (node : Val),
      isSamplerNode node = false →
      tryGetSampler ctx fuel proc i node = .ok (none, proc)) ∧
    (∀ (ctx : Ctx) (fuel : Nat) (proc : List Int) (i : Int)
       (kvs : List (String × Val)) (xs : List Val),
      slookup kvs "inputs" = some (.list xs) → isSamplerNode (.dict kvs) = true →
      ∃ e, dictSeqErr xs = some e ∧ (e = .typeError ∨ e = .valueError) ∧
        tryGetSampler ctx fuel proc i (.dict kvs) = .error e) ∧
    (∀ (p w : Val) (fuel : Nat) (ctx : Ctx) (i : Int) (nd : Val)
       (ss : List Sampler) (md : List ((Val × Int) × List (String × Val))),
      initContext p w = .ok ctx → (i, nd) ∈ ctx.prompt → isSamplerNode nd = true →
      extract p w fuel = .ok (ss, md) →
      (ss.filter (fun s => s.sampler_id = i)).length = 1 ∧
      ∀ ent ∈ md, ent.1.2 ≠ i) := by
  refine ⟨?_, ?_, ?_⟩
  · intro ctx fuel proc i node h
    exact tryGetSampler_not_sampler ctx fuel proc i node h
  · intro ctx fuel proc i kvs xs hinp hq
    exact tryGetSampler_list_inputs ctx fuel proc i kvs xs hq hinp
  · intro p w fuel ctx i nd ss md hinit hmem hq hex
    obtain ⟨proc', h1, h2⟩ := extract_ok_parts p w fuel ctx ss md hinit hex
    constructor
    · have hids := pass1_ids ctx fuel ctx.prompt [] ss proc' h1
      have hnodup := initContext_keys_nodup p w ctx hinit
      have e1 : (ss.filter (fun s => s.sampler_id = i)).length =
          ((ss.map (fun s => s.sampler_id)).filter (fun j => j = i)).length :=
        (length_filter_map (fun s => s.sampler_id) (fun j => j = i) ss).symm
      rw [e1, hids]
      exact key_filter_once ctx.prompt (fun e => isSamplerNode e.2) i nd hnodup hmem hq
    · intro ent hent hc
      obtain ⟨g1, nd2, g2, g3⟩ := pass2_entries ctx.prompt proc' md h2 ent hent
      rw [hc] at g1
      exact g1 (pass1_mem_processed ctx fuel ctx.prompt [] ss proc' i nd h1 hmem hq)

/-- Witness for the amended C2: a non-qualifying node is skipped
silently, a list `inputs` with an unhashable element (whose `TypeError`
the guarded `issubset` catches) is also skipped silently, a qualifying
list-inputs node raises the error of the `dict` conversion (here
`ValueError`, its first element being a 12-character string), and on
the walkthrough scenario the qualifying node 1 yields exactly one
Sampler. -/
theorem c2_witness :
    tryGetSampler scenCtx 10 [] 5 (.str "x") = .ok (none, []) ∧
    tryGetSampler scenCtx 10 [] 6
      (.dict [("inputs",
        .list [.str "sampler_name", .str "steps", .str "cfg", .list []])]) =
      .ok (none, []) ∧
    (∃ e, dictSeqErr [.str "sampler_name", .str "steps", .str "cfg"] = some e ∧
      (e = PyErr.typeError ∨ e = PyErr.valueError) ∧
      tryGetSampler scenCtx 10 [] 1
        (.dict [("inputs", .list [.str "sampler_name", .str "steps", .str "cfg"])]) =
        .error e) ∧
    ([scenSampler].filter (fun s => s.sampler_id = 1)).length = 1 :=
  ⟨c2_amended_qualification.1 scenCtx 10 [] 5 (.str "x") rfl,
   c2_amended_qualification.1 scenCtx 10 [] 6
     (.dict [("inputs",
       .list [.str "sampler_name", .str "steps", .str "cfg", .list []])]) rfl,
   c2_amended_qualification.2.1 scenCtx 10 [] 1
     [("inputs", .list [.str "sampler_name", .str "steps", .str "cfg"])]
     [.str "sampler_name", .str "steps", .str "cfg"] rfl (by decide),
   (c2_amended_qualification.2.2 scenPrompt scenWorkflow 10 scenCtx 1 scenNode1
     [scenSampler] [] rfl (by decide) (by decide) rfl).1⟩

/-- C9: the link-reference test is exactly `isinstance(value, list)`:
for a sampler produced from a node with mapping inputs, a key/value pair
is kept among the raw parameters iff it is an input other than
`sampler_name` whose value is not a list; and a leftover node's Metadata
entry keeps a pair iff its value is not a list — regardless of the
list's length or element types, and every non-list value is kept as a
literal. -/
theorem c9_link_reference_is_list :
    (∀ (ctx : Ctx) (fuel : Nat) (proc : List Int) (nodeId : Int)
       (kvs ikvs : List (String × Val)) (s : Sampler) (proc' : List Int),
      slookup kvs "inputs" = some (.dict ikvs) →
      tryGetSampler ctx fuel proc nodeId (.dict kvs) = .ok (some s, proc') →
      ∀ (k : String) (v : Val),
        ((k, v) ∈ s.parameters ↔
          ((k, v) ∈ ikvs ∧ k ≠ "sampler_name" ∧ v.isList = false))) ∧
    (∀ (nodeId : Int) (kvs ikvs : List (String × Val)) (ct : Val)
       (ent : List (String × Val)) (j : Int),
      slookup kvs "inputs" = some (.dict ikvs) →
      pass2Node nodeId (.dict kvs) = .ok (some ((ct, j), ent)) →
      ∀ (k : String) (v : Val),
        ((k, v) ∈ ent ↔ ((k, v) ∈ ikvs ∧ v.isList = false))) := by
  constructor
  · intro ctx fuel proc nodeId kvs ikvs s proc' hinp htry k v
    cases hq : isSamplerNode (.dict kvs) with
    | false =>
      rw [tryGetSampler_not_sampler _ _ _ _ _ hq] at htry
      injection htry with h'
      have h2 : (none : Option Sampler) = some s := congrArg Prod.fst h'
      cases h2
    | true =>
      obtain ⟨sname, hsn⟩ := isSamplerNode_sname hinp hq
      rw [tryGetSampler_eq_chain ctx fuel proc nodeId kvs ikvs sname hq hinp hsn] at htry
      obtain ⟨s2, mdl, proc1, pos, proc2, negs, _, _, _, hos, hs⟩ :=
        samplerChain_ok ctx fuel nodeId sname ikvs proc (some s) proc' htry
      injection hos with hss
      rw [hss, hs]
      constructor
      · intro hmem2
        obtain ⟨hm1, hm2⟩ := List.mem_filter.mp hmem2
        obtain ⟨hma, hmb⟩ := (mem_eraseKey ikvs "sampler_name" k v).mp hm1
        refine ⟨hma, hmb, ?_⟩
        simpa using hm2
      · rintro ⟨hma, hmb, hmc⟩
        refine List.mem_filter.mpr
          ⟨(mem_eraseKey ikvs "sampler_name" k v).mpr ⟨hma, hmb⟩, ?_⟩
        simp [hmc]
  · intro nodeId kvs ikvs ct ent j hinp hnode k v
    unfold pass2Node at hnode
    simp only [hinp] at hnode
    by_cases hlits : ikvs.filter (fun kv => ¬ kv.2.isList) = []
    · rw [if_pos hlits] at hnode
      cases hnode
    · rw [if_neg hlits] at hnode
      cases hct : slookup kvs "class_type" with
      | none =>
        simp only [hct] at hnode
        cases hnode
      | some ct2 =>
        simp only [hct] at hnode
        injection hnode with h'
        injection h' with h''
        have hent : ent = ikvs.filter (fun kv => ¬ kv.2.isList) :=
          (congrArg Prod.snd h'').symm
        rw [hent]
        constructor
        · intro hmem2
          obtain ⟨hm1, hm2⟩ := List.mem_filter.mp hmem2
          exact ⟨hm1, by simpa using hm2⟩
        · rintro ⟨hma, hmc⟩
          exact List.mem_filter.mpr ⟨hma, by simp [hmc]⟩

/-- Witness for C9 at the walkthrough sampler node and a leftover
`Note` node. -/
theorem c9_witness :
    (("steps", Val.num 20) ∈ scenSampler.parameters ↔
      (("steps", Val.num 20) ∈ scenInputs1 ∧ "steps" ≠ "sampler_name" ∧
        (Val.num 20).isList = false)) ∧
    (("foo", Val.str "bar") ∈ [("foo", Val.str "bar")] ↔
      (("foo", Val.str "bar") ∈ [("foo", Val.str "bar")] ∧
        (Val.str "bar").isList = false)) :=
  ⟨c9_link_reference_is_list.1 scenCtx 10 [] 1 scenNode1Kvs scenInputs1 scenSampler
     [4, 3, 2, 1] rfl rfl "steps" (.num 20),
   c9_link_reference_is_list.2 5 noteKvs [("foo", .str "bar")] (.str "Note")
     [("foo", .str "bar")] 5 rfl rfl "foo" (.str "bar")⟩

end SdParsers
